import Mathlib

/-!
Verification development for the Stellaris / EduLoop repository.

Shallow embedding, in Lean 4, of the pure computational kernels of the
repository's Python sources, together with theorems settling the frozen
specification claims.  Python machine-level details that matter are made
explicit: floor division `//` on non-negative divisors is `Int` division
(`Int.ediv`, which agrees with Python's floor division for positive
divisors), Python strings are modelled as `List Char`, Python `str.strip`
is modelled over Python's whitespace set, and dictionaries whose insertion
order matters are modelled as association lists.
-/

namespace EduLoop

/-! ## Python string primitives (shared by several embeddings) -/

/-- Python's `str.isspace` character set restricted to the ASCII whitespace
characters produced and consumed by the code under study: space, tab,
newline, carriage return, vertical tab, form feed. -/
def isPySpace (c : Char) : Bool :=
  c = ' ' || c = '\t' || c = '\n' || c = '\x0d' || c = '\x0b' || c = '\x0c'

/-- Python `str.strip()` on a character list: drop whitespace from both ends. -/
def pyStrip (s : List Char) : List Char :=
  ((s.dropWhile isPySpace).reverse.dropWhile isPySpace).reverse

/-- Python `str.strip()` lifted to `String`. -/
def pyStripS (s : String) : String :=
  String.mk (pyStrip s.toList)

/-- Substring test `needle in haystack` (Python's `in` on strings). -/
def listInfix (needle haystack : List Char) : Bool :=
  decide (needle <:+: haystack)

/-- Python `haystack.find(c)` for a single character: index of first
occurrence, `-1` when absent. -/
def pyFindChar (s : List Char) (c : Char) : Int :=
  match s.findIdx? (fun x => x = c) with
  | some i => (i : Int)
  | none => -1

/-- Python `haystack.rfind(c)` for a single character: index of last
occurrence, `-1` when absent. -/
def pyRFindChar (s : List Char) (c : Char) : Int :=
  match s.reverse.findIdx? (fun x => x = c) with
  | some i => ((s.length - 1 - i : Nat) : Int)
  | none => -1

/-- Python slice `s[a:b]` on a character list (with the usual clamping). -/
def pySlice (s : List Char) (a b : Nat) : List Char :=
  (s.take b).drop a

/-- Python `s.lower()` restricted to ASCII case folding (the code only
lower-cases ASCII topic names and answers). -/
def pyLower (s : List Char) : List Char :=
  s.map Char.toLower

/-! ## `AssessmentAgent._create_marking_scheme`
(src/eduloop/agents/assessment_agent.py lines 203-218, identical copy in
src/DEPRECATED_assessment_agent.py lines 411-426). -/

/-- Embedding of `AssessmentAgent._create_marking_scheme(question_type,
total_marks)`.  The Python dict literal is modelled as an association list
in insertion order; `//` is floor division, which for the positive divisors
2 and 3 coincides with `Int` division. -/
def createMarkingScheme (questionType : String) (totalMarks : Int) :
    List (String × Int) :=
  if questionType = "mcq" then
    [("correct_answer", totalMarks)]
  else if questionType = "short_answer" then
    [("correct_working", totalMarks / 2),
     ("correct_answer", totalMarks - totalMarks / 2)]
  else
    [("understanding", totalMarks / 3),
     ("working", totalMarks / 3),
     ("final_answer", totalMarks - 2 * (totalMarks / 3))]

/-- Sum of the values of a marking-scheme breakdown. -/
def schemeSum (scheme : List (String × Int)) : Int :=
  (scheme.map Prod.snd).sum

/-! ## `get_dse_level` (src/eduloop/utils/helpers.py lines 59-74).
Python floats are modelled as rationals: only order comparisons with small
integer thresholds occur, on which ℚ and IEEE doubles agree. -/

/-- Embedding of the shared utility `get_dse_level(percentage)`. -/
def getDseLevel (percentage : ℚ) : String :=
  if percentage ≥ 90 then "Level 5**"
  else if percentage ≥ 80 then "Level 5*"
  else if percentage ≥ 70 then "Level 5"
  else if percentage ≥ 60 then "Level 4"
  else if percentage ≥ 50 then "Level 3"
  else if percentage ≥ 40 then "Level 2"
  else "Level 1"

/-- Embedding of `calculate_percentage(obtained, total)`
(src/eduloop/utils/helpers.py): returns 0.0 on a zero total, otherwise
`obtained / total * 100`. -/
def calculatePercentage (obtained total : ℚ) : ℚ :=
  if total = 0 then 0 else obtained / total * 100

/-! ## `BedrockSession` state machine
(src/eduloop_NextJS/core/bedrock_orchestrator.py lines 44-101). -/

/-- The `LoopState` enumeration of the Bedrock orchestration layer. -/
inductive LoopState where
  | idle
  | teaching
  | assessing
  | reviewing
  | completed
deriving DecidableEq, Repr

/-- The `valid_transitions` table written inside `BedrockSession.transition`.
Every state has an entry, so the Python `dict.get(state, [])` default never
fires; it is still modelled faithfully by total pattern matching. -/
def validTransitions : LoopState → List LoopState
  | .idle      => [.teaching]
  | .teaching  => [.assessing, .idle]
  | .assessing => [.reviewing, .idle]
  | .reviewing => [.teaching, .completed]
  | .completed => [.idle, .teaching]

/-- Embedding of `BedrockSession`.  The two `datetime.now()` timestamp
fields are wall-clock reads and are not modelled; the JSON-valued
`teaching_output` / `assessment_report` / `mastery_scores` payloads are not
touched by the claims and are elided.  `history` keeps the event labels. -/
structure BedrockSession where
  sessionId : String
  state : LoopState := .idle
  currentTopic : String := ""
  loopCount : Nat := 0
  history : List String := []
  knowledgeGaps : List String := []
deriving DecidableEq, Repr

/-- Embedding of `BedrockSession.transition(new_state)`.  Returns the
updated session together with the `logger.warning` flag: `true` exactly
when the requested state is not in the allowed list for the current state.
The state is assigned unconditionally afterwards, and the loop counter is
incremented exactly when the new state is `teaching`. -/
def BedrockSession.transition (s : BedrockSession) (newState : LoopState) :
    BedrockSession × Bool :=
  let warned := ¬ newState ∈ validTransitions s.state
  let s := { s with state := newState }
  let s := if newState = .teaching then { s with loopCount := s.loopCount + 1 }
           else s
  (s, warned)

/-! ## `DSEPDFParser._chunk_sliding_window`
(src/eduloop_NextJS/knowledge_base/pdf_parser.py lines 420-456),
specialised to the default `max_size = 1000`, `overlap = 150` used by
`_chunk_text`'s fallback call.  The Python `while` loop is embedded with an
explicit fuel parameter; the termination claim is then the theorem that
fuel `text.length + 1` never runs out. -/

/-- Python `text.rfind(sub, a, b)`: the largest index `i ≥ a` with
`i + sub.length ≤ min b text.length` at which `sub` occurs in `text`, or
`-1` when there is none.  Implemented by a single left-to-right scan
keeping the best (rightmost) hit. -/
def pyRFindSub (text sub : List Char) (a b : Nat) : Int :=
  let bb := min b text.length
  let rec go : List Char → Nat → Int → Int
    | [], _, best => best
    | l :: ls, i, best =>
      go ls (i + 1)
        (if i + sub.length ≤ bb && sub.isPrefixOf (l :: ls) then (i : Int)
         else best)
  go (text.drop a) a (-1)

/-- The per-iteration window-end computation of `_chunk_sliding_window`:
`end = min(start + max_size, text_len)`, then (only when the window does
not already reach the end of the text) prefer a paragraph break past the
window midpoint, else a sentence break past the midpoint. -/
def slideEnd (text : List Char) (start : Nat) : Nat :=
  let end0 := min (start + 1000) text.length
  if end0 < text.length then
    let paraBreak := pyRFindSub text ['\n', '\n'] start end0
    if paraBreak > (start : Int) + 500 then paraBreak.toNat
    else
      let sentBreak :=
        max (pyRFindSub text ['.', ' '] start end0)
          (max (pyRFindSub text ['。'] start end0)
            (pyRFindSub text ['?', ' '] start end0))
      if sentBreak > (start : Int) + 500 then sentBreak.toNat + 1
      else end0
  else end0

/-- The `while start < text_len` loop of `_chunk_sliding_window` with
explicit fuel: each iteration slices `text[start:end]`, strips it, keeps it
when non-empty, and continues at `end - overlap` while the window end fell
short of the text end.  `none` means the fuel ran out (the loop would still
be running). -/
def chunkSWFuel (text : List Char) : Nat → Nat → Option (List (List Char))
  | 0, _ => none
  | fuel + 1, start =>
    if start < text.length then
      let e := slideEnd text start
      let chunk := pyStrip (pySlice text start e)
      if e < text.length then
        match chunkSWFuel text fuel (e - 150) with
        | none => none
        | some rest => some (if chunk = [] then rest else chunk :: rest)
      else some (if chunk = [] then [] else [chunk])
    else some []

/-- `_chunk_sliding_window(text)` with default parameters, run with fuel
`text.length + 1` from `start = 0`. -/
def chunkSlidingWindow (text : List Char) : Option (List (List Char)) :=
  chunkSWFuel text (text.length + 1) 0

/-! ## `DSEPDFParser._chunk_by_questions`
(src/eduloop_NextJS/knowledge_base/pdf_parser.py lines 399-408).
`re.split` with the zero-width lookahead pattern
`(?=(?:^|\n)\s*(?:Q(?:uestion)?\s*\.?\s*)?\d{1,2}\s*[\.\)]\s)` is modelled
directly: a backtracking-complete recogniser for the lookahead body (each
matcher maps an input suffix to every suffix reachable by consuming a
match), the set of positions where the lookahead fires, and the fragments
between consecutive such positions (a leading empty fragment when position
0 fires, exactly as CPython's `re.split` produces).  `\s` is Python's
whitespace class, `\d` restricted to ASCII digits (the only digits the
pattern is aimed at). -/

/-- Consume exactly one character of the class `p`. -/
def matchChar (p : Char → Bool) : List Char → List (List Char)
  | [] => []
  | c :: cs => if p c then [cs] else []

/-- Consume any number of characters of the class `p` (all alternatives of
a greedy-with-backtracking `p*`). -/
def matchStar (p : Char → Bool) : List Char → List (List Char)
  | [] => [([] : List Char)]
  | c :: cs => if p c then (c :: cs) :: matchStar p cs else [c :: cs]

/-- Consume the literal character sequence `lit`. -/
def matchLit (lit : List Char) (cs : List Char) : List (List Char) :=
  if lit.isPrefixOf cs then [cs.drop lit.length] else []

/-- Match `m` or nothing (`(?:...)?`). -/
def matchOpt (m : List Char → List (List Char)) (cs : List Char) :
    List (List Char) :=
  m cs ++ [cs]

/-- ASCII `\d`. -/
def isDigitChar (c : Char) : Bool := '0' ≤ c && c ≤ '9'

/-- Recogniser for the lookahead body after the `(?:^|\n)` anchor:
`\s*(?:Q(?:uestion)?\s*\.?\s*)?\d{1,2}\s*[\.\)]\s`. -/
def boundaryBody (cs : List Char) : Bool :=
  let qtoken := fun cs =>
    ((((matchLit ['Q'] cs).flatMap
        (matchOpt (matchLit ['u', 'e', 's', 't', 'i', 'o', 'n']))).flatMap
      (matchStar isPySpace)).flatMap
        (matchOpt (matchChar (fun c => c = '.')))).flatMap
      (matchStar isPySpace)
  let afterNum :=
    ((((matchStar isPySpace cs).flatMap (matchOpt qtoken)).flatMap
        (matchChar isDigitChar)).flatMap
      (matchOpt (matchChar isDigitChar))).flatMap
        (matchStar isPySpace)
  let final :=
    (afterNum.flatMap (matchChar (fun c => c = '.' || c = ')'))).flatMap
      (matchChar isPySpace)
  !final.isEmpty

/-- Whether the question-number lookahead fires at position `i` of `text`:
the `(?:^|\n)` alternative (start of string, or a literal newline) followed
by the body. -/
def questionBoundary (text : List Char) (i : Nat) : Bool :=
  let tail := text.drop i
  let anchored :=
    (if i = 0 then [tail] else []) ++ matchChar (fun c => c = '\n') tail
  anchored.any boundaryBody

/-- All positions of `text` where the lookahead fires, in increasing
order. -/
def reSplitPositions (text : List Char) : List Nat :=
  (List.range (text.length + 1)).filter (fun i => questionBoundary text i)

/-- The fragments of `text` delimited by an ordered position list, starting
from `prev` (CPython emits `text[prev:p]` for each match position `p` and a
final `text[prev:]`). -/
def splitAtPositions (text : List Char) : Nat → List Nat → List (List Char)
  | prev, [] => [pySlice text prev text.length]
  | prev, p :: ps => pySlice text prev p :: splitAtPositions text p ps

/-- `re.split(pattern, text)` for the question-boundary pattern. -/
def reSplitQuestions (text : List Char) : List (List Char) :=
  splitAtPositions text 0 (reSplitPositions text)

/-- Embedding of `_chunk_by_questions(text)`: split on the lookahead
boundaries, strip each fragment, keep the stripped fragments that are
truthy and of length strictly greater than 30, and return them only when at
least 2 remain (otherwise the empty list, making `_chunk_text` fall back to
the sliding window). -/
def chunkByQuestions (text : List Char) : List (List Char) :=
  let parts := ((reSplitQuestions text).map pyStrip).filter
    (fun p => !p.isEmpty && decide (30 < p.length))
  if 2 ≤ parts.length then parts else []

/-- The concrete counterexample text for the boundary-filter claim:
`"1. " + 27*'a' + "\n2. " + 37*'b' + "\n3. " + 37*'c'`, whose first
question fragment strips to exactly 30 characters. -/
def cexQuestionText : List Char :=
  ['1', '.', ' '] ++ List.replicate 27 'a' ++
    ['\n', '2', '.', ' '] ++ List.replicate 37 'b' ++
    ['\n', '3', '.', ' '] ++ List.replicate 37 'c'

/-- A text whose two question fragments both strip to 43 characters:
`"1. " + 40*'a' + "\n2. " + 40*'b'`. -/
def wQuestionText : List Char :=
  ['1', '.', ' '] ++ List.replicate 40 'a' ++
    ['\n', '2', '.', ' '] ++ List.replicate 40 'b'

/-! ## The deprecated assessment pipeline with no LLM provider configured
(src/DEPRECATED_assessment_agent.py).  With no MiniMax API key,
`_call_minimax_llm` returns the empty string, so `_generate_question`
(lines 273-329) always takes its placeholder branch and `_score_question`
(lines 329-353) always falls back to the topic-substring heuristic for
non-mcq questions.  The two internal `random` draws — the question type and
the mcq option — are modelled as explicit per-question choice arguments, so
quantifying over them covers every random outcome.  `generate_entity_id`
ids are modelled as index-based names `q_<n>` (unique, like the uuids). -/

/-- The three values `random.choice(["mcq", "short_answer", "long_answer"])`
can take in `_generate_question`. -/
inductive QType where
  | mcq
  | shortAnswer
  | longAnswer
deriving DecidableEq, Repr

/-- A generated question record (placeholder branch fields plus the
metadata `_generate_question` attaches). -/
structure GenQuestion where
  questionId : String
  questionText : String
  qtype : String
  options : List String
  correctAnswer : String
  marks : Nat
  topic : String
  difficulty : String
  subject : String
deriving DecidableEq, Repr

/-- Embedding of `_generate_question` on the no-LLM placeholder path:
`marks = 1` for mcq and `5` otherwise, options `A`–`D` with a randomly
chosen correct option for mcq, and the fixed correct answer "A" otherwise.
`choice` carries the two random draws. -/
def generateQuestion (topic difficulty subject : String) (idx : Nat)
    (choice : QType × Fin 4) : GenQuestion :=
  let qtype := match choice.1 with
    | .mcq => "mcq"
    | .shortAnswer => "short_answer"
    | .longAnswer => "long_answer"
  let options : List String :=
    if choice.1 = .mcq then ["A", "B", "C", "D"] else []
  let correct : String :=
    if choice.1 = .mcq then ["A", "B", "C", "D"].get choice.2 else "A"
  { questionId := "q_" ++ toString idx
    questionText := difficulty.capitalize ++ " question on " ++ topic
    qtype := qtype
    options := options
    correctAnswer := correct
    marks := if choice.1 = .mcq then 1 else 5
    topic := topic
    difficulty := difficulty
    subject := subject }

/-- The fields of the assessment dict built by `generate_assessment`
(lines 110-150) that the evaluation reads: the question list and
`total_marks`, the sum of the per-question marks. -/
structure Assessment where
  topic : String
  difficulty : String
  questions : List GenQuestion
  totalMarks : Nat
deriving DecidableEq, Repr

/-- Embedding of `generate_assessment(lesson, num_questions)` with
`num_questions = choices.length`: one `_generate_question` call per
question, accumulating `total_marks`. -/
def generateAssessment (topic difficulty subject : String)
    (choices : List (QType × Fin 4)) : Assessment :=
  let questions := choices.mapIdx
    (fun idx c => generateQuestion topic difficulty subject idx c)
  { topic := topic
    difficulty := difficulty
    questions := questions
    totalMarks := (questions.map GenQuestion.marks).sum }

/-- Embedding of `_score_question(question, student_answer)` on the no-LLM
path: mcq compares the answer with `correct_answer` for full marks or 0;
otherwise the LLM grader is unavailable and the fallback heuristic marks
the answer correct iff the lower-cased topic is a substring of the
lower-cased answer. -/
def scoreQuestion (q : GenQuestion) (studentAnswer : String) : Nat × Bool :=
  if q.qtype = "mcq" then
    if studentAnswer = q.correctAnswer then (q.marks, true) else (0, false)
  else
    if listInfix (pyLower q.topic.toList) (pyLower studentAnswer.toList) then
      (q.marks, true)
    else (0, false)

/-- The evaluation fields of `evaluate_student_response` that the claim
reads. -/
structure Evaluation where
  totalScore : Nat
  percentage : ℚ
  dseLevel : String
deriving DecidableEq, Repr

/-- Embedding of `evaluate_student_response(assessment_id, student_answers)`
(lines 179-240), taking the assessment record directly in place of the
history lookup by id: answers whose question id is unknown are skipped,
each found question is scored by `_score_question`, and the totals feed
`calculate_percentage` and `get_dse_level`.  The `question_map` dict is
modelled by `find?` over the (uniquely-identified) question list. -/
def evaluateStudentResponse (a : Assessment)
    (answers : List (String × String)) : Evaluation :=
  let scored := answers.filterMap (fun ans =>
    match a.questions.find? (fun q => q.questionId = ans.1) with
    | none => none
    | some q => some (scoreQuestion q ans.2))
  let totalScore := (scored.map Prod.fst).sum
  let percentage := calculatePercentage (totalScore : ℚ) (a.totalMarks : ℚ)
  { totalScore := totalScore
    percentage := percentage
    dseLevel := getDseLevel percentage }

/-- The submission the claim describes: for each question of the
assessment, the exact `correct_answer` value that was returned. -/
def echoCorrectAnswers (a : Assessment) : List (String × String) :=
  a.questions.map (fun q => (q.questionId, q.correctAnswer))

/-! ## `BedrockOrchestrator.get_or_create_session`
(src/eduloop_NextJS/core/bedrock_orchestrator.py lines 210-216).
The `self._sessions` dict is modelled as an association list with newest
binding first (so `List.lookup` sees the latest assignment, like a dict);
`uuid.uuid4().hex[:12]` fresh-identifier generation is modelled by a
per-orchestrator counter yielding pairwise distinct `session_<n>` names,
preserving the uniqueness the code relies on. -/

/-- Truthiness of the Python `str | None` argument `session_id`: `None` and
the empty string are falsy. -/
def pyTruthy : Option String → Bool
  | some s => s ≠ ""
  | none => false

/-- Embedding of `BedrockSession.__init__`: `session_id or
f"session_{uuid4...}"` keeps a truthy (non-empty) given id and otherwise
generates a fresh one. -/
def newBedrockSession (sessionId : Option String) (fresh : Nat) :
    BedrockSession :=
  { sessionId :=
      match sessionId with
      | some s => if s = "" then "session_" ++ toString fresh else s
      | none => "session_" ++ toString fresh }

/-- The orchestrator state relevant to session management: the session
registry plus the fresh-identifier supply. -/
structure Orchestrator where
  sessions : List (String × BedrockSession) := []
  freshCounter : Nat := 0
deriving DecidableEq, Repr

/-- Embedding of `BedrockOrchestrator.get_or_create_session(session_id)`:
return the registered session when the id is truthy and present, otherwise
construct a `BedrockSession` and register it under its own id. -/
def getOrCreateSession (o : Orchestrator) (sessionId : Option String) :
    BedrockSession × Orchestrator :=
  match (if pyTruthy sessionId then
      o.sessions.lookup (sessionId.getD "") else none) with
  | some sess => (sess, o)
  | none =>
    let sess := newBedrockSession sessionId o.freshCounter
    (sess, { sessions := (sess.sessionId, sess) :: o.sessions,
             freshCounter := o.freshCounter + 1 })

/-! ## `DSERetriever.retrieve`
(src/eduloop/knowledge_base/rag_retriever.py lines 134-197).
The ChromaDB collection is external to the repository; it is modelled as a
stored-id list (whose length is `collection.count()`) together with an
arbitrary query oracle returning the nested result rows ChromaDB would.
`round(x, 4)` is modelled as rounding to 4 decimal places. -/

/-- The nested result lists ChromaDB's `collection.query` returns (one
query text, so the first inner list of each field). -/
structure ChromaQueryResult where
  ids : List String
  documents : List String
  metadatas : List (List (String × String))
  distances : List ℚ

/-- Model of the ChromaDB collection: stored chunk ids plus a query oracle
mapping `(n_results, query_text)` to result rows. -/
structure ChromaCollection where
  storedIds : List String
  query : Nat → String → ChromaQueryResult

/-- `collection.count()`. -/
def ChromaCollection.count (c : ChromaCollection) : Nat :=
  c.storedIds.length

/-- One retrieved chunk as assembled by `DSERetriever.retrieve`. -/
structure RetrievedChunk where
  id : String
  text : String
  source : String
  score : ℚ
  metadata : List (String × String)

/-- Python's 4-tuple `zip`, which stops at the shortest list. -/
def zip4 {α β γ δ : Type} :
    List α → List β → List γ → List δ → List (α × β × γ × δ)
  | a :: as, b :: bs, c :: cs, d :: ds => (a, b, c, d) :: zip4 as bs cs ds
  | _, _, _, _ => []

/-- `round(x, 4)` on the modelled score (Python uses banker's rounding,
which agrees with `round` except at exact half-way ties). -/
def roundTo4 (q : ℚ) : ℚ :=
  (round (q * 10000) : ℚ) / 10000

/-- Embedding of `DSERetriever.retrieve(query, k)` (without the optional
`where` filters, which only add keys to the query parameters): computes
`n_results = min(k, count or k)`, returns `[]` when the collection is
empty, and otherwise unpacks the oracle's nested rows into chunk records. -/
def retrieve (c : ChromaCollection) (queryText : String) (k : Nat) :
    List RetrievedChunk :=
  let nResults := min k (if c.count = 0 then k else c.count)
  if c.count = 0 then []
  else
    let results := c.query nResults queryText
    (zip4 results.documents results.metadatas results.distances
        results.ids).map
      (fun row =>
        { id := row.2.2.2
          text := row.1
          source := (row.2.1.lookup "source_file").getD "unknown"
          score := roundTo4 (1 - row.2.2.1)
          metadata := row.2.1 })

/-! ## JSON values, `json.dumps` and `json.loads`
(Python standard library, called by `_safe_json_parse` in
src/eduloop_NextJS/agents/teaching_agent.py lines 30-53 and its identical
copy in src/eduloop_NextJS/core/bedrock_orchestrator.py lines 544-564).
The library is modelled: JSON numbers are integers (IEEE floats are outside
the embedding), serialisation follows `json.dumps` with its default
`", "` / `": "` separators and raw (non-`\u`-escaped) output for printable
characters, and parsing follows the strict `json.loads` grammar — `true` /
`false` / `null` literals, integer numbers, strings with the eight
single-character escapes and `\uXXXX` (surrogate pairs combined; lone
surrogates and float syntax are rejected, as they have no counterpart in
the model), arrays and objects with mandatory comma/colon structure, and
insignificant JSON whitespace.  Parsed objects keep their key/value pairs
in order (Python keeps the last duplicate key; serialised dicts never have
duplicates). -/

/-- A JSON value.  Strings are character lists (Unicode scalars, like
Python `str` without lone surrogates); numbers are integers. -/
inductive JVal where
  | null
  | bool (b : Bool)
  | num (n : Int)
  | str (s : List Char)
  | arr (xs : List JVal)
  | obj (kvs : List (List Char × JVal))

/-- The JSON insignificant-whitespace class used by `json.loads`
(space, tab, newline, carriage return only). -/
def isJsonWs (c : Char) : Bool :=
  c = ' ' || c = '\t' || c = '\n' || c = '\x0d'

/-- Skip insignificant JSON whitespace. -/
def skipWs (cs : List Char) : List Char :=
  cs.dropWhile isJsonWs

/-- Lower-case hexadecimal digit character for `n < 16`. -/
def hexDigitChar (n : Nat) : Char :=
  if n < 10 then Char.ofNat (48 + n) else Char.ofNat (87 + n)

/-- Numeric value of a hexadecimal digit character. -/
def hexCharVal (c : Char) : Option Nat :=
  if '0' ≤ c ∧ c ≤ '9' then some (c.toNat - 48)
  else if 'a' ≤ c ∧ c ≤ 'f' then some (c.toNat - 87)
  else if 'A' ≤ c ∧ c ≤ 'F' then some (c.toNat - 55)
  else none

/-- Big-endian decimal digit characters of a natural number, as
`json.dumps` (via `repr`) prints it. -/
def digitsBE (m : Nat) : List Char :=
  if m = 0 then ['0'] else (Nat.digits 10 m).reverse.map hexDigitChar

/-- `repr` of a Python int. -/
def printInt (n : Int) : List Char :=
  if n < 0 then '-' :: digitsBE n.natAbs else digitsBE n.natAbs

/-- `json.dumps` escaping of one string character: the two mandatory
escapes, the five short control escapes, `\u00XX` for the other control
characters, everything else raw. -/
def escapeChar (c : Char) : List Char :=
  if c = '"' then ['\\', '"']
  else if c = '\\' then ['\\', '\\']
  else if c = '\n' then ['\\', 'n']
  else if c = '\t' then ['\\', 't']
  else if c = '\x0d' then ['\\', 'r']
  else if c = '\x08' then ['\\', 'b']
  else if c = '\x0c' then ['\\', 'f']
  else if c.toNat < 0x20 then
    ['\\', 'u', '0', '0', hexDigitChar (c.toNat / 16),
     hexDigitChar (c.toNat % 16)]
  else [c]

/-- `json.dumps` body of a string (without the enclosing quotes). -/
def escapeStr (s : List Char) : List Char :=
  s.flatMap escapeChar

mutual

/-- `json.dumps(v)` with the default separators. -/
def printVal : JVal → List Char
  | .null => ['n', 'u', 'l', 'l']
  | .bool b =>
    bif b then ['t', 'r', 'u', 'e'] else ['f', 'a', 'l', 's', 'e']
  | .num n => printInt n
  | .str s => '"' :: escapeStr s ++ ['"']
  | .arr xs => '[' :: printElems xs ++ [']']
  | .obj kvs => '{' :: printObjElems kvs ++ ['}']

/-- `", "`-separated array elements. -/
def printElems : List JVal → List Char
  | [] => []
  | [x] => printVal x
  | x :: y :: xs => printVal x ++ ',' :: ' ' :: printElems (y :: xs)

/-- `", "`-separated `"key": value` members. -/
def printObjElems : List (List Char × JVal) → List Char
  | [] => []
  | [(k, v)] => '"' :: escapeStr k ++ '"' :: ':' :: ' ' :: printVal v
  | (k, v) :: kv :: kvs =>
    '"' :: escapeStr k ++ '"' :: ':' :: ' ' :: printVal v ++
      ',' :: ' ' :: printObjElems (kv :: kvs)

end

/-- Decode a single-character JSON string escape. -/
def escDecode : Char → Option Char
  | '"' => some '"'
  | '\\' => some '\\'
  | '/' => some '/'
  | 'b' => some '\x08'
  | 'f' => some '\x0c'
  | 'n' => some '\n'
  | 'r' => some '\x0d'
  | 't' => some '\t'
  | _ => none

/-- Prepend a decoded character to a string-parse result. -/
def consStr (c : Char) : Option (List Char × List Char) →
    Option (List Char × List Char)
  | some (s, r) => some (c :: s, r)
  | none => none

/-- Parse the body of a JSON string after the opening quote, returning the
decoded characters and the remainder after the closing quote.  Strict mode:
raw control characters and invalid escapes are rejected; `\uXXXX` high/low
surrogate pairs are combined into one scalar (a lone surrogate is rejected
— it is not representable as a Unicode scalar). -/
def parseStrBody : List Char → Option (List Char × List Char)
  | [] => none
  | '"' :: rest => some ([], rest)
  | '\\' :: 'u' :: h1 :: h2 :: h3 :: h4 :: rest =>
    (match hexCharVal h1, hexCharVal h2, hexCharVal h3, hexCharVal h4 with
     | some a, some b, some c, some d =>
       let v := ((a * 16 + b) * 16 + c) * 16 + d
       if 0xD800 ≤ v ∧ v ≤ 0xDBFF then
         match rest with
         | '\\' :: 'u' :: g1 :: g2 :: g3 :: g4 :: rest2 =>
           (match hexCharVal g1, hexCharVal g2, hexCharVal g3,
               hexCharVal g4 with
            | some a2, some b2, some c2, some d2 =>
              let w := ((a2 * 16 + b2) * 16 + c2) * 16 + d2
              if 0xDC00 ≤ w ∧ w ≤ 0xDFFF then
                consStr
                  (Char.ofNat
                    (0x10000 + (v - 0xD800) * 0x400 + (w - 0xDC00)))
                  (parseStrBody rest2)
              else none
            | _, _, _, _ => none)
         | _ => none
       else consStr (Char.ofNat v) (parseStrBody rest)
     | _, _, _, _ => none)
  | '\\' :: e :: rest =>
    (match escDecode e with
     | some c => consStr c (parseStrBody rest)
     | none => none)
  | c :: rest =>
    if c.toNat < 0x20 then none
    else consStr c (parseStrBody rest)

/-- Consume a maximal run of decimal digits, accumulating their value
big-endian. -/
def parseDigits : List Char → Nat → Nat × List Char
  | [], acc => (acc, [])
  | c :: cs, acc =>
    if isDigitChar c then parseDigits cs (10 * acc + (c.toNat - 48))
    else (acc, c :: cs)

/-- Whether a number may stop here: float syntax (`.`, `e`, `E`) has no
integer counterpart in the model and is rejected. -/
def numTail : List Char → Bool
  | [] => true
  | c :: _ => !(c = '.' || c = 'e' || c = 'E')

/-- Parse an unsigned JSON integer (`0 | [1-9][0-9]*`). -/
def parseNum : List Char → Option (Nat × List Char)
  | '0' :: rest => if numTail rest then some (0, rest) else none
  | c :: rest =>
    if isDigitChar c && !(c = '0') then
      let p := parseDigits (c :: rest) 0
      if numTail p.2 then some p else none
    else none
  | [] => none

/-- Characters that may follow a complete printed number without extending
it: anything but a digit or the float continuations `.`/`e`/`E`. -/
def numSafe : List Char → Bool
  | [] => true
  | c :: _ => !(isDigitChar c || c = '.' || c = 'e' || c = 'E')

/-- Prefix test that inspects the needle first, so that it computes even
when the haystack's tail is not yet known. -/
def litPrefix : List Char → List Char → Bool
  | [], _ => true
  | _ :: _, [] => false
  | a :: as, b :: bs => a == b && litPrefix as bs

/-- The three parsing modes of the recursive-descent `json.loads` scanner:
a value, the tail of an array after at least one element is required, and
the tail of an object after at least one member is required. -/
inductive PTask where
  | val
  | arrRest (acc : List JVal)
  | objRest (acc : List (List Char × JVal))

/-- The `json.loads` recursive-descent parser with explicit fuel (one unit
per grammar step; `none` on fuel exhaustion or parse error).  Array and
object tails assume insignificant whitespace has been skipped. -/
def parseF : Nat → PTask → List Char →
    Option (JVal × List Char)
  | 0, _, _ => none
  | fuel + 1, .val, cs =>
    (match skipWs cs with
     | [] => none
     | '{' :: r =>
       (match skipWs r with
        | '}' :: r2 => some (.obj [], r2)
        | r2 => parseF fuel (.objRest []) r2)
     | '[' :: r =>
       (match skipWs r with
        | ']' :: r2 => some (.arr [], r2)
        | r2 => parseF fuel (.arrRest []) r2)
     | '"' :: r =>
       (match parseStrBody r with
        | some (s, r2) => some (.str s, r2)
        | none => none)
     | '-' :: r =>
       (match parseNum r with
        | some (m, r2) => some (.num (-(m : Int)), r2)
        | none => none)
     | c :: r =>
       if isDigitChar c then
         match parseNum (c :: r) with
         | some (m, r2) => some (.num (m : Int), r2)
         | none => none
       else if litPrefix ['n', 'u', 'l', 'l'] (c :: r) then
         some (.null, (c :: r).drop 4)
       else if litPrefix ['t', 'r', 'u', 'e'] (c :: r) then
         some (.bool true, (c :: r).drop 4)
       else if litPrefix ['f', 'a', 'l', 's', 'e'] (c :: r) then
         some (.bool false, (c :: r).drop 5)
       else none)
  | fuel + 1, .arrRest acc, cs =>
    (match parseF fuel .val cs with
     | none => none
     | some (v, r) =>
       match skipWs r with
       | ',' :: r2 => parseF fuel (.arrRest (acc ++ [v])) (skipWs r2)
       | ']' :: r2 => some (.arr (acc ++ [v]), r2)
       | _ => none)
  | fuel + 1, .objRest acc, cs =>
    (match cs with
     | '"' :: r =>
       (match parseStrBody r with
        | none => none
        | some (k, r1) =>
          match skipWs r1 with
          | ':' :: r2 =>
            (match parseF fuel .val r2 with
             | none => none
             | some (v, r3) =>
               match skipWs r3 with
               | ',' :: r4 =>
                 parseF fuel (.objRest (acc ++ [(k, v)])) (skipWs r4)
               | '}' :: r4 => some (.obj (acc ++ [(k, v)]), r4)
               | _ => none)
          | _ => none)
     | _ => none)

/-- `json.loads(cs)`: parse one value with ample fuel and require only
insignificant whitespace to remain. -/
def loads (cs : List Char) : Option JVal :=
  match parseF (cs.length + 1) .val cs with
  | some (v, rest) => if skipWs rest = [] then some v else none
  | none => none

/-! ## `_safe_json_parse`
(src/eduloop_NextJS/agents/teaching_agent.py lines 30-53, identical
`@staticmethod` copy in bedrock_orchestrator.py lines 544-564). -/

/-- The fence-stripping preamble of `_safe_json_parse`: strip, drop a
leading triple-backtick fence line (up to and including the first newline,
or the first 4 characters when there is no newline), drop a trailing
triple-backtick, strip again. -/
def fenceStrip (text : List Char) : List Char :=
  let t0 := pyStrip text
  let t1 :=
    if ['`', '`', '`'].isPrefixOf t0 then
      let firstNl : Nat :=
        match t0.findIdx? (fun c => c = '\n') with
        | some i => i
        | none => 3
      t0.drop (firstNl + 1)
    else t0
  let t2 := if ['`', '`', '`'].isSuffixOf t1 then t1.take (t1.length - 3)
    else t1
  pyStrip t2

/-- The second attempt of `_safe_json_parse`: locate the first `{` and the
last `}` and re-parse that substring (requires both found and in order). -/
def braceRetry (t : List Char) : Option JVal :=
  let start := pyFindChar t '{'
  let stop := pyRFindChar t '}'
  if start ≠ -1 ∧ stop ≠ -1 ∧ stop > start then
    loads (pySlice t start.toNat (stop.toNat + 1))
  else none

/-- Embedding of `_safe_json_parse(text)`: fence-strip, strict parse, brace
retry on failure, absent result when both attempts fail. -/
def safeJsonParse (text : List Char) : Option JVal :=
  let t := fenceStrip text
  match loads t with
  | some v => some v
  | none => braceRetry t

/-- The markdown fence wrapping of the claim: a backtick fence line with
the given language tag above the body, a closing fence below. -/
def fenceWrap (tag body : List Char) : List Char :=
  ['`', '`', '`'] ++ tag ++ '\n' :: body ++ '\n' :: ['`', '`', '`']

mutual

/-- Fuel sufficient for `parseF` to parse the printed form of a value. -/
def weight : JVal → Nat
  | .null => 1
  | .bool _ => 1
  | .num _ => 1
  | .str _ => 1
  | .arr xs => 1 + weightArr xs
  | .obj kvs => 1 + weightObj kvs

/-- Fuel sufficient for the array-tail mode on a printed element list. -/
def weightArr : List JVal → Nat
  | [] => 1
  | x :: xs => 1 + max (weight x) (weightArr xs)

/-- Fuel sufficient for the object-tail mode on printed members. -/
def weightObj : List (List Char × JVal) → Nat
  | [] => 1
  | (_, v) :: kvs => 1 + max (weight v) (weightObj kvs)

end

end EduLoop

namespace EduLoop

/-! ## Theorems for claims C1–C4 -/

/-- C1: for each question type in {mcq, short_answer, long_answer} and every
integer total marks T, `_create_marking_scheme` returns exactly the claimed
breakdown, and the values of that breakdown sum to T. -/
theorem marking_scheme_sums_to_total (T : Int) :
    createMarkingScheme "mcq" T = [("correct_answer", T)] ∧
    createMarkingScheme "short_answer" T =
      [("correct_working", T / 2), ("correct_answer", T - T / 2)] ∧
    createMarkingScheme "long_answer" T =
      [("understanding", T / 3), ("working", T / 3),
       ("final_answer", T - 2 * (T / 3))] ∧
    schemeSum (createMarkingScheme "mcq" T) = T ∧
    schemeSum (createMarkingScheme "short_answer" T) = T ∧
    schemeSum (createMarkingScheme "long_answer" T) = T := by
  refine ⟨rfl, rfl, rfl, ?_, ?_, ?_⟩ <;>
    simp [createMarkingScheme, schemeSum] <;> ring

/-- C4: the shared `get_dse_level` realises the claimed seven-band ladder,
with the claimed half-open ranges, and maps the seven sample percentages to
the seven levels. -/
theorem get_dse_level_ladder (p : ℚ) :
    (90 ≤ p → getDseLevel p = "Level 5**") ∧
    (80 ≤ p ∧ p < 90 → getDseLevel p = "Level 5*") ∧
    (70 ≤ p ∧ p < 80 → getDseLevel p = "Level 5") ∧
    (60 ≤ p ∧ p < 70 → getDseLevel p = "Level 4") ∧
    (50 ≤ p ∧ p < 60 → getDseLevel p = "Level 3") ∧
    (40 ≤ p ∧ p < 50 → getDseLevel p = "Level 2") ∧
    (p < 40 → getDseLevel p = "Level 1") ∧
    getDseLevel 95 = "Level 5**" ∧ getDseLevel 85 = "Level 5*" ∧
    getDseLevel 75 = "Level 5" ∧ getDseLevel 65 = "Level 4" ∧
    getDseLevel 55 = "Level 3" ∧ getDseLevel 45 = "Level 2" ∧
    getDseLevel 35 = "Level 1" := by
  unfold getDseLevel
  refine ⟨fun h => if_pos h, ?_, ?_, ?_, ?_, ?_, ?_, ?_, ?_, ?_, ?_, ?_, ?_,
    ?_⟩
  · rintro ⟨h1, h2⟩; split_ifs <;> first | rfl | linarith
  · rintro ⟨h1, h2⟩; split_ifs <;> first | rfl | linarith
  · rintro ⟨h1, h2⟩; split_ifs <;> first | rfl | linarith
  · rintro ⟨h1, h2⟩; split_ifs <;> first | rfl | linarith
  · rintro ⟨h1, h2⟩; split_ifs <;> first | rfl | linarith
  · intro h; split_ifs <;> first | rfl | linarith
  all_goals norm_num

/-- C4 witness: the ladder theorem applied at the concrete percentage 85. -/
theorem get_dse_level_ladder_witness :
    (80 ≤ (85 : ℚ) ∧ (85 : ℚ) < 90) ∧ getDseLevel 85 = "Level 5*" :=
  ⟨by norm_num, (get_dse_level_ladder 85).2.1 (by norm_num)⟩

/-- C2: `BedrockSession.transition` checks the fixed transition table with a
warning-only policy: the warning flag is raised exactly when the requested
state is outside the allowed set of the current state, the table is the one
claimed, and the session's state is set to the requested state in every
case. -/
theorem transition_is_advisory (s : BedrockSession) (newState : LoopState) :
    ((s.transition newState).1.state = newState) ∧
    ((s.transition newState).2 = true ↔ newState ∉ validTransitions s.state) ∧
    validTransitions .idle = [.teaching] ∧
    validTransitions .teaching = [.assessing, .idle] ∧
    validTransitions .assessing = [.reviewing, .idle] ∧
    validTransitions .reviewing = [.teaching, .completed] ∧
    validTransitions .completed = [.idle, .teaching] := by
  refine ⟨?_, ?_, rfl, rfl, rfl, rfl, rfl⟩ <;>
    simp [BedrockSession.transition] <;> split <;> simp

/-- C3: `BedrockSession.transition` increments the loop counter by exactly 1
when the requested state is `teaching`, and leaves it unchanged otherwise. -/
theorem transition_loop_count (s : BedrockSession) (newState : LoopState) :
    (s.transition newState).1.loopCount =
      (if newState = .teaching then s.loopCount + 1 else s.loopCount) := by
  simp only [BedrockSession.transition]
  split <;> simp

/-! ## Theorems for claims C8 and C9 -/

/-- C8: `retrieve` on a collection with a stored-chunk count of 0 returns
the empty list for every query and every `k` (and, being a total function,
raises no exception). -/
theorem retrieve_empty_collection (c : ChromaCollection) (q : String)
    (k : Nat) (h : c.count = 0) : retrieve c q k = [] := by
  simp [retrieve, h]

/-- A freshly reset collection: no stored chunks, an oracle with no rows. -/
def emptyChroma : ChromaCollection :=
  ⟨[], fun _ _ => ⟨[], [], [], []⟩⟩

/-- C8 witness: the empty-collection theorem applied to a concrete reset
collection with query "Polynomials" and k = 5. -/
theorem retrieve_empty_collection_witness :
    emptyChroma.count = 0 ∧ retrieve emptyChroma "Polynomials" 5 = [] :=
  ⟨rfl, retrieve_empty_collection emptyChroma "Polynomials" 5 rfl⟩

/-- C9 (amended): for every non-empty session id `s`, a second
`get_or_create_session` call with `s` returns exactly the session the first
call returned, leaves the registry unchanged, the registry gains at most
one entry across the two calls, and a session already registered under `s`
is returned as stored, unmodified. -/
theorem get_or_create_session_idempotent (o : Orchestrator) (s : String)
    (hs : s ≠ "") :
    (getOrCreateSession (getOrCreateSession o (some s)).2 (some s)).1 =
      (getOrCreateSession o (some s)).1 ∧
    (getOrCreateSession (getOrCreateSession o (some s)).2 (some s)).2 =
      (getOrCreateSession o (some s)).2 ∧
    (getOrCreateSession o (some s)).2.sessions.length ≤
      o.sessions.length + 1 ∧
    (∀ t, o.sessions.lookup s = some t →
      (getOrCreateSession o (some s)).1 = t) := by
  rcases hl : o.sessions.lookup s with _ | t <;>
    simp [getOrCreateSession, pyTruthy, hs, hl, newBedrockSession,
      List.lookup]

/-- C9 witness: the idempotence theorem applied to the empty orchestrator
and the concrete session id "s1". -/
theorem get_or_create_session_idempotent_witness :
    ("s1" : String) ≠ "" ∧
    (getOrCreateSession (getOrCreateSession {} (some "s1")).2
        (some "s1")).1 =
      (getOrCreateSession ({} : Orchestrator) (some "s1")).1 :=
  ⟨by decide, (get_or_create_session_idempotent {} "s1" (by decide)).1⟩

/-! ## Theorems for claim C10 -/

/-- Helper: whenever an iteration of the sliding-window loop does not reach
the end of the text, its window end lies strictly more than the 150-char
overlap past the window start (any chosen break lies past the window
midpoint 500 > 150, and the untouched window end lies at `start + 1000`),
so the next start `end - 150` strictly advances. -/
theorem slideEnd_advances (text : List Char) (start : Nat)
    (h : start < text.length) (hlt : slideEnd text start < text.length) :
    start + 150 < slideEnd text start := by
  simp only [slideEnd] at hlt ⊢
  split_ifs at hlt ⊢ <;> omega

/-- Helper: fuel exceeding `text.length - start` never runs out, and every
returned chunk is non-empty (the loop only appends stripped slices it has
checked to be non-empty). -/
theorem chunkSWFuel_total (text : List Char) :
    ∀ fuel start, text.length - start < fuel →
      ∃ out, chunkSWFuel text fuel start = some out ∧ ∀ c ∈ out, c ≠ [] := by
  intro fuel
  induction fuel with
  | zero => intro start h; exact absurd h (by omega)
  | succ fuel ih =>
    intro start h
    by_cases hs : start < text.length
    · by_cases he : slideEnd text start < text.length
      · have hadv := slideEnd_advances text start hs he
        obtain ⟨out, hout, hne⟩ := ih (slideEnd text start - 150) (by omega)
        refine ⟨if pyStrip (pySlice text start (slideEnd text start)) = []
              then out
              else pyStrip (pySlice text start (slideEnd text start)) :: out,
            ?_, ?_⟩
        · simp only [chunkSWFuel, hs, he, hout, if_true, ite_true]
        · split
          · exact hne
          · intro c hc
            rcases List.mem_cons.mp hc with rfl | hc
            · assumption
            · exact hne c hc
      · refine ⟨if pyStrip (pySlice text start (slideEnd text start)) = []
              then []
              else [pyStrip (pySlice text start (slideEnd text start))],
            ?_, ?_⟩
        · simp only [chunkSWFuel, hs, he, if_true, ite_true, ite_false]
        · split
          · simp
          · intro c hc
            rw [List.mem_singleton.mp hc]
            assumption
    · exact ⟨[], by simp only [chunkSWFuel, hs, ite_false], by simp⟩

/-- C10: with the default window size 1000 and overlap 150, the
sliding-window chunker terminates on every input text — fuel
`text.length + 1` suffices because every iteration whose window end falls
short of the text end advances the window start by strictly more than the
overlap — and every chunk it returns is a non-empty string. -/
theorem chunk_sliding_window_terminates (text : List Char) :
    (∃ out, chunkSlidingWindow text = some out ∧ ∀ c ∈ out, c ≠ []) ∧
    (∀ start, start < text.length → slideEnd text start < text.length →
      start + 150 < slideEnd text start) :=
  ⟨chunkSWFuel_total text (text.length + 1) 0 (by omega),
   fun start h1 h2 => slideEnd_advances text start h1 h2⟩

set_option maxRecDepth 8192 in
/-- C10 witness: the theorem applied to a concrete 1002-character text, at
window start 0, with both side conditions discharged by evaluation. -/
theorem chunk_sliding_window_terminates_witness :
    (∃ out, chunkSlidingWindow (List.replicate 1002 'a') = some out ∧
        ∀ c ∈ out, c ≠ []) ∧
    (0 : Nat) < (List.replicate 1002 'a').length ∧
    slideEnd (List.replicate 1002 'a') 0 < (List.replicate 1002 'a').length ∧
    0 + 150 < slideEnd (List.replicate 1002 'a') 0 :=
  ⟨(chunk_sliding_window_terminates (List.replicate 1002 'a')).1,
   by decide, by decide,
   (chunk_sliding_window_terminates (List.replicate 1002 'a')).2 0
     (by decide) (by decide)⟩

/-! ## Theorems for claim C7 -/

/-- C7 (amended): the question-boundary splitter keeps exactly the trimmed
fragments of length strictly greater than 30 (not 30 or more): every chunk
it returns has length > 30, the split result is used only when at least 2
fragments survive the filter, and every trimmed fragment longer than 30 is
retained whenever the result is used. -/
theorem chunk_by_questions_filter (text : List Char) :
    (∀ q ∈ chunkByQuestions text, 30 < q.length) ∧
    (chunkByQuestions text ≠ [] → 2 ≤ (chunkByQuestions text).length) ∧
    (∀ p ∈ reSplitQuestions text, 30 < (pyStrip p).length →
      chunkByQuestions text ≠ [] → pyStrip p ∈ chunkByQuestions text) := by
  refine ⟨?_, ?_, ?_⟩
  · intro q hq
    simp only [chunkByQuestions] at hq
    split at hq
    · simp only [List.mem_filter, Bool.and_eq_true, decide_eq_true_eq] at hq
      exact hq.2.2
    · simp at hq
  · intro hne
    by_cases h2 : 2 ≤ (((reSplitQuestions text).map pyStrip).filter
        (fun p => !p.isEmpty && decide (30 < p.length))).length
    · simp only [chunkByQuestions, if_pos h2]
      exact h2
    · exact absurd (by simp only [chunkByQuestions, if_neg h2]) hne
  · intro p hp hlen hne
    have hnil : pyStrip p ≠ [] := by
      intro h
      rw [h] at hlen
      simp at hlen
    have hmem : pyStrip p ∈ ((reSplitQuestions text).map pyStrip).filter
        (fun p => !p.isEmpty && decide (30 < p.length)) := by
      refine List.mem_filter.mpr ⟨List.mem_map_of_mem pyStrip hp, ?_⟩
      simp [hlen, List.isEmpty_iff, hnil]
    by_cases h2 : 2 ≤ (((reSplitQuestions text).map pyStrip).filter
        (fun p => !p.isEmpty && decide (30 < p.length))).length
    · simpa only [chunkByQuestions, if_pos h2] using hmem
    · exact absurd (by simp only [chunkByQuestions, if_neg h2]) hne

/-- C7 witness: the filter theorem applied to the concrete two-question
text whose fragments strip to 43 characters each. -/
theorem chunk_by_questions_filter_witness :
    (pySlice wQuestionText 0 43 ∈ reSplitQuestions wQuestionText) ∧
    30 < (pyStrip (pySlice wQuestionText 0 43)).length ∧
    chunkByQuestions wQuestionText ≠ [] ∧
    pyStrip (pySlice wQuestionText 0 43) ∈ chunkByQuestions wQuestionText :=
  ⟨by decide, by decide, by decide,
   (chunk_by_questions_filter wQuestionText).2.2 _ (by decide) (by decide)
     (by decide)⟩

/-- C7 counterexample: on the concrete text whose first question fragment
strips to exactly 30 characters, that 30-character trimmed fragment — of
length 30 or more, hence retained according to the claim — is discarded
(the code keeps only fragments strictly longer than 30), even though the
split result is used. -/
theorem chunk_by_questions_boundary_counterexample :
    pySlice cexQuestionText 0 30 ∈ reSplitQuestions cexQuestionText ∧
    (pyStrip (pySlice cexQuestionText 0 30)).length = 30 ∧
    chunkByQuestions cexQuestionText ≠ [] ∧
    pyStrip (pySlice cexQuestionText 0 30) ∉
      chunkByQuestions cexQuestionText := by
  decide

/-! ## Theorems for claim C6 -/

/-- C6 (amended): in the no-LLM 2-question foundational "Polynomials"
scenario, whenever the generator's random type draws make both questions
mcq (for every random option draw), submitting each question's exact
`correct_answer` yields `total_score = total_marks`, `percentage = 100.0`
and the top tier `Level 5**` of the shared ladder. -/
theorem perfect_score_when_all_mcq (i j : Fin 4) :
    (evaluateStudentResponse
        (generateAssessment "Polynomials" "foundational" ""
          [(QType.mcq, i), (QType.mcq, j)])
        (echoCorrectAnswers
          (generateAssessment "Polynomials" "foundational" ""
            [(QType.mcq, i), (QType.mcq, j)]))).totalScore =
      (generateAssessment "Polynomials" "foundational" ""
        [(QType.mcq, i), (QType.mcq, j)]).totalMarks ∧
    (evaluateStudentResponse
        (generateAssessment "Polynomials" "foundational" ""
          [(QType.mcq, i), (QType.mcq, j)])
        (echoCorrectAnswers
          (generateAssessment "Polynomials" "foundational" ""
            [(QType.mcq, i), (QType.mcq, j)]))).percentage = 100 ∧
    (evaluateStudentResponse
        (generateAssessment "Polynomials" "foundational" ""
          [(QType.mcq, i), (QType.mcq, j)])
        (echoCorrectAnswers
          (generateAssessment "Polynomials" "foundational" ""
            [(QType.mcq, i), (QType.mcq, j)]))).dseLevel = "Level 5**" := by
  fin_cases i <;> fin_cases j <;>
    exact ⟨by decide,
      by show calculatePercentage ((2 : ℕ) : ℚ) ((2 : ℕ) : ℚ) = 100
         norm_num [calculatePercentage],
      by show getDseLevel
            (calculatePercentage ((2 : ℕ) : ℚ) ((2 : ℕ) : ℚ)) = "Level 5**"
         norm_num [calculatePercentage, getDseLevel]⟩

/-- C6 counterexample: when the random type draws make both questions
short-answer, echoing the returned `correct_answer` ("A") scores 0 on each
question — the no-LLM fallback looks for the topic inside the answer — so
`total_score` misses `total_marks` and the percentage is 0, refuting the
claim for every random outcome. -/
theorem perfect_score_counterexample :
    (evaluateStudentResponse
        (generateAssessment "Polynomials" "foundational" ""
          [(QType.shortAnswer, 0), (QType.shortAnswer, 0)])
        (echoCorrectAnswers
          (generateAssessment "Polynomials" "foundational" ""
            [(QType.shortAnswer, 0), (QType.shortAnswer, 0)]))).totalScore
        ≠
      (generateAssessment "Polynomials" "foundational" ""
        [(QType.shortAnswer, 0), (QType.shortAnswer, 0)]).totalMarks ∧
    (evaluateStudentResponse
        (generateAssessment "Polynomials" "foundational" ""
          [(QType.shortAnswer, 0), (QType.shortAnswer, 0)])
        (echoCorrectAnswers
          (generateAssessment "Polynomials" "foundational" ""
            [(QType.shortAnswer, 0), (QType.shortAnswer, 0)]))).percentage
        ≠ 100 := by
  exact ⟨by decide,
    by show calculatePercentage ((0 : ℕ) : ℚ) ((10 : ℕ) : ℚ) ≠ 100
       norm_num [calculatePercentage]⟩

/-! ## Round-trip lemmas for the JSON model (claim C5) -/

/-- Facts about decimal digit characters. -/
theorem hexDigitChar_facts (d : Nat) (h : d < 10) :
    isJsonWs (hexDigitChar d) = false ∧ isDigitChar (hexDigitChar d) = true ∧
    hexDigitChar d ≠ '{' ∧ hexDigitChar d ≠ '[' ∧ hexDigitChar d ≠ '"' ∧
    hexDigitChar d ≠ '-' ∧ hexDigitChar d ≠ ']' ∧ hexDigitChar d ≠ '}' ∧
    hexDigitChar d ≠ ',' ∧ (d ≠ 0 → hexDigitChar d ≠ '0') ∧
    (hexDigitChar d).toNat = 48 + d := by
  interval_cases d <;> exact ⟨rfl, rfl, by decide, by decide, by decide,
    by decide, by decide, by decide, by decide, fun h2 => by simp_all <;>
      decide, by decide⟩

/-- A hexadecimal digit character decodes to its value. -/
theorem hexCharVal_hexDigitChar (d : Nat) (h : d < 16) :
    hexCharVal (hexDigitChar d) = some d := by
  interval_cases d <;> decide

/-- Folding decimal digits big-endian computes the number the little-endian
digit list denotes. -/
theorem foldl_digits (l : List Nat) (acc : Nat) :
    l.reverse.foldl (fun a d => 10 * a + d) acc =
      acc * 10 ^ l.length + Nat.ofDigits 10 l := by
  induction l generalizing acc with
  | nil => simp [Nat.ofDigits]
  | cons d t ih =>
    simp only [List.reverse_cons, List.foldl_append, List.foldl_cons,
      List.foldl_nil, ih, Nat.ofDigits_cons, List.length_cons]
    ring

/-- The shape of the printed decimal digits of `m`: a leading digit
character (nonzero when `m` is) followed by further digit characters, whose
big-endian fold recovers `m`. -/
theorem digitsBE_shape (m : Nat) :
    ∃ d0 t, digitsBE m = hexDigitChar d0 :: t.map hexDigitChar ∧ d0 < 10 ∧
      (∀ d ∈ t, d < 10) ∧
      (d0 :: t).foldl (fun a d => 10 * a + d) 0 = m ∧ (m ≠ 0 → d0 ≠ 0) := by
  rcases Nat.eq_zero_or_pos m with rfl | hm
  · exact ⟨0, [], rfl, by omega, by simp, rfl, by simp⟩
  · have hm0 : m ≠ 0 := by omega
    have hnil : Nat.digits 10 m ≠ [] := Nat.digits_ne_nil_iff_ne_zero.mpr hm0
    rcases hrev : (Nat.digits 10 m).reverse with _ | ⟨d0, t⟩
    · exact absurd (by simpa using congrArg List.reverse hrev) hnil
    · have hmem : ∀ d ∈ d0 :: t, d < 10 := by
        intro d hd
        have : d ∈ Nat.digits 10 m := by
          rw [← List.mem_reverse, hrev]
          exact hd
        exact Nat.digits_lt_base (by omega) this
      refine ⟨d0, t, ?_, hmem d0 (by simp), fun d hd => hmem d (by simp [hd]),
        ?_, ?_⟩
      · simp [digitsBE, hm0, hrev]
      · have := foldl_digits (Nat.digits 10 m) 0
        rw [hrev] at this
        simpa [Nat.ofDigits_digits] using this
      · intro _
        have hlast : (Nat.digits 10 m).getLast? = some d0 := by
          rw [← List.head?_reverse, hrev]
          rfl
        have h2 : (Nat.digits 10 m).getLast? =
            some ((Nat.digits 10 m).getLast hnil) :=
          List.getLast?_eq_getLast _ hnil
        have h3 : d0 = (Nat.digits 10 m).getLast hnil := by
          rw [hlast] at h2
          exact Option.some.inj h2
        rw [h3]
        exact Nat.getLast_digit_ne_zero 10 hm0

/-- `parseDigits` consumes exactly a printed digit run. -/
theorem parseDigits_append (l : List Nat) (hl : ∀ d ∈ l, d < 10)
    (rest : List Char) (hrest : numSafe rest = true) (acc : Nat) :
    parseDigits (l.map hexDigitChar ++ rest) acc =
      (l.foldl (fun a d => 10 * a + d) acc, rest) := by
  induction l generalizing acc with
  | nil =>
    simp only [List.map_nil, List.nil_append, List.foldl_nil]
    cases rest with
    | nil => rfl
    | cons c cs =>
      simp only [numSafe, Bool.not_eq_eq_eq_not, Bool.not_true,
        Bool.or_eq_false_iff, decide_eq_false_iff_not] at hrest
      obtain ⟨⟨⟨hdig, -⟩, -⟩, -⟩ := hrest
      simp [parseDigits, hdig]
  | cons d t ih =>
    have hd : d < 10 := hl d (by simp)
    obtain ⟨-, hdig, -, -, -, -, -, -, -, -, htn⟩ := hexDigitChar_facts d hd
    simp only [List.map_cons, List.cons_append, parseDigits, hdig, if_true,
      htn]
    rw [show 48 + d - 48 = d by omega]
    exact ih (fun x hx => hl x (by simp [hx])) _

/-- `parseNum` on a non-zero leading digit reduces to maximal digit
consumption plus the float-continuation check. -/
theorem parseNum_cons_of_digit (c : Char) (cs : List Char)
    (h0 : c ≠ '0') (hd : isDigitChar c = true) :
    parseNum (c :: cs) =
      (if numTail (parseDigits (c :: cs) 0).2
       then some (parseDigits (c :: cs) 0) else none) := by
  unfold parseNum
  split
  next rest heq =>
    injection heq with e1 e2
    exact absurd e1 h0
  next c' rest hne h2 =>
    injection h2 with e1 e2
    subst e1
    subst e2
    rw [if_pos (by simp [hd, h0])]
  next heq => cases heq

/-- `parseNum` parses a printed natural number exactly. -/
theorem parseNum_print (m : Nat) (rest : List Char)
    (hrest : numSafe rest = true) :
    parseNum (digitsBE m ++ rest) = some (m, rest) := by
  have hnt : numTail rest = true := by
    cases rest with
    | nil => rfl
    | cons c cs =>
      simp only [numSafe, Bool.not_eq_eq_eq_not, Bool.not_true,
        Bool.or_eq_false_iff, decide_eq_false_iff_not] at hrest
      obtain ⟨⟨⟨-, hdot⟩, he⟩, hE⟩ := hrest
      simp [numTail, hdot, he, hE]
  obtain ⟨d0, t, hshape, hd0, ht, hfold, hnz⟩ := digitsBE_shape m
  rcases Nat.eq_zero_or_pos m with rfl | hm
  · simp only [digitsBE, if_pos rfl, List.cons_append, List.nil_append]
    simp [parseNum, hnt]
  · have hm0 : m ≠ 0 := by omega
    obtain ⟨-, hdig, -, -, -, -, -, -, -, hne0, -⟩ := hexDigitChar_facts d0 hd0
    have hne0' : hexDigitChar d0 ≠ '0' := hne0 (hnz hm0)
    rw [hshape, List.cons_append, parseNum_cons_of_digit _ _ hne0' hdig]
    have hpd := parseDigits_append (d0 :: t) (by
      intro d hd
      rcases List.mem_cons.mp hd with rfl | hd
      · exact hd0
      · exact ht d hd) rest hrest 0
    simp only [List.map_cons, List.cons_append] at hpd
    rw [hpd, hfold]
    simp [hnt]

/-- `parseStrBody` on a sub-surrogate `\uXXXX` escape decodes the scalar
and continues. -/
theorem parseStrBody_u (h1 h2 h3 h4 : Char) (a b c d : Nat)
    (tail : List Char)
    (e1 : hexCharVal h1 = some a) (e2 : hexCharVal h2 = some b)
    (e3 : hexCharVal h3 = some c) (e4 : hexCharVal h4 = some d)
    (hval : ((a * 16 + b) * 16 + c) * 16 + d < 0xD800) :
    parseStrBody ('\\' :: 'u' :: h1 :: h2 :: h3 :: h4 :: tail) =
      consStr (Char.ofNat (((a * 16 + b) * 16 + c) * 16 + d))
        (parseStrBody tail) := by
  rw [parseStrBody.eq_def]
  simp only [e1, e2, e3, e4]
  split_ifs with hsur
  · exact absurd hsur.1 (by omega)
  · rfl

/-- `parseStrBody` on a plain (non-quote, non-backslash, non-control)
character keeps it and continues. -/
theorem parseStrBody_plain (c : Char) (tail : List Char)
    (h1 : c ≠ '"') (h2 : c ≠ '\\') (h3 : ¬ c.toNat < 0x20) :
    parseStrBody (c :: tail) = consStr c (parseStrBody tail) := by
  rw [parseStrBody.eq_def]
  split
  next heq => cases heq
  next rest heq =>
    injection heq with e1 e2
    exact absurd e1 h1
  next hh1 hh2 hh3 hh4 rest heq =>
    injection heq with e1 e2
    exact absurd e1 h2
  next e rest heq =>
    injection heq with e1 e2
    exact absurd e1 h2
  next c' rest hne1 hne2 hne3 heq =>
    injection heq with e1 e2
    subst e1
    subst e2
    rw [if_neg h3]

/-- The string round trip: `parseStrBody` decodes an escaped string body up
to its closing quote, recovering the original characters and remainder. -/
theorem parseStrBody_escape (s rest : List Char) :
    parseStrBody (escapeStr s ++ '"' :: rest) = some (s, rest) := by
  induction s with
  | nil => rfl
  | cons c s ih =>
    rw [show escapeStr (c :: s) = escapeChar c ++ escapeStr s from by
        simp [escapeStr], List.append_assoc]
    by_cases h1 : c = '"'
    · subst h1
      have hstep : parseStrBody
          (escapeChar '"' ++ (escapeStr s ++ '"' :: rest)) =
          consStr '"' (parseStrBody (escapeStr s ++ '"' :: rest)) := rfl
      rw [hstep, ih]
      rfl
    · by_cases h2 : c = '\\'
      · subst h2
        have hstep : parseStrBody
            (escapeChar '\\' ++ (escapeStr s ++ '"' :: rest)) =
            consStr '\\' (parseStrBody (escapeStr s ++ '"' :: rest)) := rfl
        rw [hstep, ih]
        rfl
      · by_cases h3 : c = '\n'
        · subst h3
          have hstep : parseStrBody
              (escapeChar '\n' ++ (escapeStr s ++ '"' :: rest)) =
              consStr '\n' (parseStrBody (escapeStr s ++ '"' :: rest)) := rfl
          rw [hstep, ih]
          rfl
        · by_cases h4 : c = '\t'
          · subst h4
            have hstep : parseStrBody
                (escapeChar '\t' ++ (escapeStr s ++ '"' :: rest)) =
                consStr '\t' (parseStrBody (escapeStr s ++ '"' :: rest)) :=
              rfl
            rw [hstep, ih]
            rfl
          · by_cases h5 : c = '\x0d'
            · subst h5
              have hstep : parseStrBody
                  (escapeChar '\x0d' ++ (escapeStr s ++ '"' :: rest)) =
                  consStr '\x0d'
                    (parseStrBody (escapeStr s ++ '"' :: rest)) := rfl
              rw [hstep, ih]
              rfl
            · by_cases h6 : c = '\x08'
              · subst h6
                have hstep : parseStrBody
                    (escapeChar '\x08' ++ (escapeStr s ++ '"' :: rest)) =
                    consStr '\x08'
                      (parseStrBody (escapeStr s ++ '"' :: rest)) := rfl
                rw [hstep, ih]
                rfl
              · by_cases h7 : c = '\x0c'
                · subst h7
                  have hstep : parseStrBody
                      (escapeChar '\x0c' ++ (escapeStr s ++ '"' :: rest)) =
                      consStr '\x0c'
                        (parseStrBody (escapeStr s ++ '"' :: rest)) := rfl
                  rw [hstep, ih]
                  rfl
                · by_cases h8 : c.toNat < 0x20
                  · rw [show escapeChar c = '\\' :: 'u' :: '0' :: '0' ::
                        hexDigitChar (c.toNat / 16) ::
                        hexDigitChar (c.toNat % 16) :: [] from by
                      simp [escapeChar, h1, h2, h3, h4, h5, h6, h7, h8]]
                    rw [List.cons_append, List.cons_append, List.cons_append,
                      List.cons_append, List.cons_append, List.cons_append,
                      List.nil_append]
                    rw [parseStrBody_u '0' '0' _ _ 0 0 (c.toNat / 16)
                      (c.toNat % 16) _ rfl rfl
                      (hexCharVal_hexDigitChar _ (by omega))
                      (hexCharVal_hexDigitChar _ (by
                        exact Nat.lt_of_lt_of_le (Nat.mod_lt _ (by omega))
                          (by omega)))
                      (by omega)]
                    rw [show ((0 * 16 + 0) * 16 + c.toNat / 16) * 16 +
                        c.toNat % 16 = c.toNat from by omega]
                    rw [Char.ofNat_toNat, ih]
                    rfl
                  · rw [show escapeChar c = [c] from by
                        simp [escapeChar, h1, h2, h3, h4, h5, h6, h7, h8],
                      List.singleton_append]
                    rw [parseStrBody_plain c _ h1 h2 h8, ih]
                    rfl

/-- Skipping whitespace is idempotent. -/
theorem skipWs_skipWs (l : List Char) : skipWs (skipWs l) = skipWs l := by
  induction l with
  | nil => rfl
  | cons c t ih =>
    by_cases h : isJsonWs c
    · simpa [skipWs, List.dropWhile_cons, h] using ih
    · simp [skipWs, List.dropWhile_cons, h]

/-- `skipWs` keeps a list whose head is not whitespace. -/
theorem skipWs_cons_of (c : Char) (l : List Char)
    (h : isJsonWs c = false) : skipWs (c :: l) = c :: l := by
  simp [skipWs, List.dropWhile_cons, h]

/-- `parseF` in value mode only sees the whitespace-skipped input. -/
theorem parseF_val_skipWs (f : Nat) (cs : List Char) :
    parseF (f + 1) .val cs = parseF (f + 1) .val (skipWs cs) := by
  simp only [parseF, skipWs_skipWs]

/-- Every printed value starts with a non-whitespace character that is not
a closing delimiter or separator. -/
theorem printVal_cons (v : JVal) :
    ∃ c t, printVal v = c :: t ∧ isJsonWs c = false ∧ c ≠ ']' ∧ c ≠ '}' ∧
      c ≠ ',' := by
  cases v with
  | null => exact ⟨'n', ['u', 'l', 'l'], by simp [printVal], by decide,
      by decide, by decide, by decide⟩
  | bool b =>
    cases b
    · exact ⟨'f', ['a', 'l', 's', 'e'], by simp [printVal], by decide,
        by decide, by decide, by decide⟩
    · exact ⟨'t', ['r', 'u', 'e'], by simp [printVal], by decide,
        by decide, by decide, by decide⟩
  | num n =>
    by_cases hn : n < 0
    · exact ⟨'-', digitsBE n.natAbs, by simp [printVal, printInt, hn],
        by decide, by decide, by decide, by decide⟩
    · obtain ⟨d0, t, hshape, hd0, -, -, -⟩ := digitsBE_shape n.natAbs
      obtain ⟨hws, -, -, -, -, -, hne1, hne2, hne3, -, -⟩ :=
        hexDigitChar_facts d0 hd0
      exact ⟨hexDigitChar d0, t.map hexDigitChar,
        by simp [printVal, printInt, hn, hshape], hws, hne1, hne2, hne3⟩
  | str s => exact ⟨'"', escapeStr s ++ ['"'], by simp [printVal],
      by decide, by decide, by decide, by decide⟩
  | arr xs => exact ⟨'[', printElems xs ++ [']'], by simp [printVal],
      by decide, by decide, by decide, by decide⟩
  | obj kvs => exact ⟨'{', printObjElems kvs ++ ['}'], by simp [printVal],
      by decide, by decide, by decide, by decide⟩

/-- `skipWs` keeps the printed form of a value (with anything around). -/
theorem skipWs_printVal (v : JVal) (r : List Char) :
    skipWs (printVal v ++ r) = printVal v ++ r := by
  obtain ⟨c, t, hv, hws, -, -, -⟩ := printVal_cons v
  rw [hv, List.cons_append, skipWs_cons_of c _ hws]

/-- A printed nonempty element list starts with its first printed value. -/
theorem printElems_cons (x : JVal) (xs : List JVal) :
    ∃ u, printElems (x :: xs) = printVal x ++ u := by
  cases xs with
  | nil => exact ⟨[], by simp [printElems]⟩
  | cons y t => exact ⟨',' :: ' ' :: printElems (y :: t), by
      simp [printElems]⟩

/-- `parseF` on `[` followed by a non-`]` character enters the array-tail
mode. -/
theorem parseF_val_arr_cons (f : Nat) (c : Char) (t : List Char)
    (hws : isJsonWs c = false) (hc : c ≠ ']') :
    parseF (f + 1) .val ('[' :: c :: t) = parseF f (.arrRest []) (c :: t) := by
  have h1 : skipWs ('[' :: c :: t) = '[' :: c :: t :=
    skipWs_cons_of _ _ (by decide)
  simp only [parseF, h1, skipWs_cons_of c t hws]
  split
  next heq =>
    injection heq with e1 e2
    exact absurd e1 hc
  next r heq => rfl

/-- `parseF` on `{` followed by a non-`}` character enters the object-tail
mode. -/
theorem parseF_val_obj_cons (f : Nat) (c : Char) (t : List Char)
    (hws : isJsonWs c = false) (hc : c ≠ '}') :
    parseF (f + 1) .val ('{' :: c :: t) = parseF f (.objRest []) (c :: t) := by
  have h1 : skipWs ('{' :: c :: t) = '{' :: c :: t :=
    skipWs_cons_of _ _ (by decide)
  simp only [parseF, h1, skipWs_cons_of c t hws]
  split
  next heq =>
    injection heq with e1 e2
    exact absurd e1 hc
  next r heq => rfl

/-- A printed nonempty member list starts with a double quote. -/
theorem printObjElems_cons (kv : List Char × JVal)
    (kvs : List (List Char × JVal)) :
    ∃ u, printObjElems (kv :: kvs) = '"' :: u := by
  obtain ⟨k, v⟩ := kv
  cases kvs with
  | nil => exact ⟨escapeStr k ++ '"' :: ':' :: ' ' :: printVal v, by
      simp [printObjElems]⟩
  | cons kv2 t => exact ⟨escapeStr k ++ '"' :: ':' :: ' ' ::
      (printVal v ++ ',' :: ' ' :: printObjElems (kv2 :: t)), by
      simp [printObjElems]⟩

mutual

/-- The parser inverts the printer on values: with fuel at least the
value's weight, parsing the printed form followed by any number-safe
remainder yields the value and that remainder. -/
theorem parse_printVal (v : JVal) : ∀ (fuel : Nat) (rest : List Char),
    weight v ≤ fuel → numSafe rest = true →
    parseF fuel .val (printVal v ++ rest) = some (v, rest) := by
  cases v with
  | null =>
    intro fuel rest hw hrest
    cases fuel with
    | zero => simp [weight] at hw
    | succ f =>
      rw [show printVal .null = ['n', 'u', 'l', 'l'] from by simp [printVal]]
      rfl
  | bool b =>
    intro fuel rest hw hrest
    cases fuel with
    | zero => simp [weight] at hw
    | succ f =>
      cases b
      · rw [show printVal (.bool false) = ['f', 'a', 'l', 's', 'e'] from by
          simp [printVal]]
        rfl
      · rw [show printVal (.bool true) = ['t', 'r', 'u', 'e'] from by
          simp [printVal]]
        rfl
  | num n =>
    intro fuel rest hw hrest
    cases fuel with
    | zero => simp [weight] at hw
    | succ f =>
      by_cases hn : n < 0
      · rw [show printVal (.num n) = '-' :: digitsBE n.natAbs from by
          simp [printVal, printInt, hn], List.cons_append]
        have hstep : parseF (f + 1) .val
            ('-' :: (digitsBE n.natAbs ++ rest)) =
            (match parseNum (digitsBE n.natAbs ++ rest) with
             | some (m, r2) => some (.num (-(m : Int)), r2)
             | none => none) := rfl
        rw [hstep, parseNum_print _ _ hrest]
        show some (JVal.num (-((n.natAbs : ℕ) : ℤ)), rest) =
          some (JVal.num n, rest)
        rw [show (-((n.natAbs : ℕ) : ℤ)) = n from by omega]
      · rw [show printVal (.num n) = digitsBE n.natAbs from by
          simp [printVal, printInt, hn]]
        have hnum := parseNum_print n.natAbs rest hrest
        have hcast : ((n.natAbs : ℕ) : ℤ) = n := by omega
        obtain ⟨d0, t, hshape, hd0, -, -, -⟩ := digitsBE_shape n.natAbs
        rw [hshape] at hnum ⊢
        rw [List.cons_append] at hnum ⊢
        interval_cases d0 <;>
        · change (match parseNum _ with
                  | some (m, r2) => some (JVal.num (m : ℤ), r2)
                  | none => none) = _
          rw [hnum]
          show some (JVal.num ((n.natAbs : ℕ) : ℤ), rest) =
            some (JVal.num n, rest)
          rw [hcast]
  | str s =>
    intro fuel rest hw hrest
    cases fuel with
    | zero => simp [weight] at hw
    | succ f =>
      rw [show printVal (.str s) = '"' :: escapeStr s ++ ['"'] from by
        simp [printVal]]
      rw [show ('"' :: escapeStr s ++ ['"']) ++ rest =
          '"' :: (escapeStr s ++ '"' :: rest) from by simp]
      change (match parseStrBody (escapeStr s ++ '"' :: rest) with
              | some (s', r2) => some (JVal.str s', r2)
              | none => none) = _
      rw [parseStrBody_escape]
  | arr xs =>
    intro fuel rest hw hrest
    cases fuel with
    | zero => simp [weight] at hw
    | succ f =>
      cases xs with
      | nil =>
        rw [show printVal (.arr []) = ['[', ']'] from by
          simp [printVal, printElems]]
        rfl
      | cons x xs2 =>
        rw [show printVal (.arr (x :: xs2)) =
            '[' :: printElems (x :: xs2) ++ [']'] from by simp [printVal]]
        rw [show ('[' :: printElems (x :: xs2) ++ [']']) ++ rest =
            '[' :: (printElems (x :: xs2) ++ ']' :: rest) from by simp]
        obtain ⟨u, hpe⟩ := printElems_cons x xs2
        obtain ⟨c, t, hx, hcws, hc1, hc2, hc3⟩ := printVal_cons x
        have hcons : printElems (x :: xs2) ++ ']' :: rest =
            c :: (t ++ u ++ ']' :: rest) := by
          rw [hpe, hx]
          simp
        rw [hcons, parseF_val_arr_cons f c _ hcws hc1, ← hcons]
        rw [parse_printArr x xs2 f [] rest (by
          simp only [weight] at hw
          omega)]
        simp
  | obj kvs =>
    intro fuel rest hw hrest
    cases fuel with
    | zero => simp [weight] at hw
    | succ f =>
      cases kvs with
      | nil =>
        rw [show printVal (.obj []) = ['{', '}'] from by
          simp [printVal, printObjElems]]
        rfl
      | cons kv kvs2 =>
        rw [show printVal (.obj (kv :: kvs2)) =
            '{' :: printObjElems (kv :: kvs2) ++ ['}'] from by
          simp [printVal]]
        rw [show ('{' :: printObjElems (kv :: kvs2) ++ ['}']) ++ rest =
            '{' :: (printObjElems (kv :: kvs2) ++ '}' :: rest) from by
          simp]
        obtain ⟨u, hpe⟩ := printObjElems_cons kv kvs2
        have hcons : printObjElems (kv :: kvs2) ++ '}' :: rest =
            '"' :: (u ++ '}' :: rest) := by
          rw [hpe]
          simp
        rw [hcons, parseF_val_obj_cons f '"' _ (by decide) (by decide),
          ← hcons]
        rw [parse_printObj kv.1 kv.2 kvs2 f [] rest (by
          simp only [weight, Prod.mk.eta] at hw ⊢
          omega)]
        simp
termination_by sizeOf v
decreasing_by
  all_goals simp_wf
  all_goals try subst_vars
  all_goals try simp
  all_goals try rw [List.cons.sizeOf_spec]
  all_goals omega

/-- The parser inverts the printer on nonempty array tails. -/
theorem parse_printArr (x : JVal) (xs : List JVal) : ∀ (fuel : Nat)
    (acc : List JVal) (rest : List Char), weightArr (x :: xs) ≤ fuel →
    parseF fuel (.arrRest acc) (printElems (x :: xs) ++ ']' :: rest) =
      some (.arr (acc ++ x :: xs), rest) := by
  intro fuel acc rest hw
  cases fuel with
  | zero => simp [weightArr] at hw
  | succ f =>
    simp only [parseF]
    cases xs with
    | nil =>
      rw [show printElems [x] = printVal x from by simp [printElems]]
      rw [parse_printVal x f (']' :: rest) (by
        simp only [weightArr] at hw
        omega) rfl]
      rfl
    | cons y t2 =>
      rw [show printElems (x :: y :: t2) =
          printVal x ++ ',' :: ' ' :: printElems (y :: t2) from by
        simp [printElems]]
      rw [show (printVal x ++ ',' :: ' ' :: printElems (y :: t2)) ++
          ']' :: rest =
          printVal x ++ (',' :: ' ' :: (printElems (y :: t2) ++
            ']' :: rest)) from by simp]
      rw [parse_printVal x f
        (',' :: ' ' :: (printElems (y :: t2) ++ ']' :: rest)) (by
          simp only [weightArr] at hw
          omega) rfl]
      change parseF f (.arrRest (acc ++ [x]))
        (skipWs (' ' :: (printElems (y :: t2) ++ ']' :: rest))) = _
      obtain ⟨u2, hpe2⟩ := printElems_cons y t2
      rw [show skipWs (' ' :: (printElems (y :: t2) ++ ']' :: rest)) =
          printElems (y :: t2) ++ ']' :: rest from by
        rw [show skipWs (' ' :: (printElems (y :: t2) ++ ']' :: rest)) =
            skipWs (printElems (y :: t2) ++ ']' :: rest) from rfl]
        rw [hpe2, List.append_assoc]
        exact skipWs_printVal y _]
      rw [parse_printArr y t2 f (acc ++ [x]) rest (by
        simp only [weightArr] at hw ⊢
        omega)]
      simp
termination_by sizeOf (x :: xs)
decreasing_by
  all_goals simp_wf
  all_goals try subst_vars
  all_goals try simp
  all_goals try rw [List.cons.sizeOf_spec]
  all_goals omega

/-- The parser inverts the printer on nonempty object tails. -/
theorem parse_printObj (k : List Char) (v : JVal)
    (kvs : List (List Char × JVal)) : ∀ (fuel : Nat)
    (acc : List (List Char × JVal)) (rest : List Char),
    weightObj ((k, v) :: kvs) ≤ fuel →
    parseF fuel (.objRest acc)
        (printObjElems ((k, v) :: kvs) ++ '}' :: rest) =
      some (.obj (acc ++ (k, v) :: kvs), rest) := by
  intro fuel acc rest hw
  cases fuel with
  | zero => simp [weightObj] at hw
  | succ f =>
    have hf1 : 1 ≤ f := by
      have hwv : 1 ≤ weight v := by
        cases v <;> simp [weight]
      simp only [weightObj] at hw
      omega
    obtain ⟨g, rfl⟩ : ∃ g, f = g + 1 := ⟨f - 1, by omega⟩
    simp only [parseF]
    cases kvs with
    | nil =>
      rw [show printObjElems [(k, v)] =
          '"' :: escapeStr k ++ '"' :: ':' :: ' ' :: printVal v from by
        simp [printObjElems]]
      rw [show ('"' :: escapeStr k ++ '"' :: ':' :: ' ' :: printVal v) ++
          '}' :: rest =
          '"' :: (escapeStr k ++
            '"' :: (':' :: ' ' :: (printVal v ++ '}' :: rest))) from by
        simp]
      simp only [parseStrBody_escape k
        (':' :: ' ' :: (printVal v ++ '}' :: rest))]
      change (match parseF (g + 1) .val
          (' ' :: (printVal v ++ '}' :: rest)) with
        | none => none
        | some (v2, r3) =>
          match skipWs r3 with
          | ',' :: r4 =>
            parseF (g + 1) (.objRest (acc ++ [(k, v2)])) (skipWs r4)
          | '}' :: r4 => some (.obj (acc ++ [(k, v2)]), r4)
          | _ => none) = _
      rw [parseF_val_skipWs, show skipWs
          (' ' :: (printVal v ++ '}' :: rest)) =
          printVal v ++ '}' :: rest from by
        rw [show skipWs (' ' :: (printVal v ++ '}' :: rest)) =
            skipWs (printVal v ++ '}' :: rest) from rfl]
        exact skipWs_printVal v _]
      rw [parse_printVal v (g + 1) ('}' :: rest) (by
        simp only [weightObj] at hw
        omega) rfl]
      rfl
    | cons kv2 t2 =>
      rw [show printObjElems ((k, v) :: kv2 :: t2) =
          '"' :: escapeStr k ++ '"' :: ':' :: ' ' :: printVal v ++
            ',' :: ' ' :: printObjElems (kv2 :: t2) from by
        simp [printObjElems]]
      rw [show ('"' :: escapeStr k ++ '"' :: ':' :: ' ' :: printVal v ++
          ',' :: ' ' :: printObjElems (kv2 :: t2)) ++ '}' :: rest =
          '"' :: (escapeStr k ++
            '"' :: (':' :: ' ' :: (printVal v ++
              (',' :: ' ' :: (printObjElems (kv2 :: t2) ++
                '}' :: rest))))) from by simp]
      simp only [parseStrBody_escape k]
      change (match parseF (g + 1) .val
          (' ' :: (printVal v ++
            (',' :: ' ' :: (printObjElems (kv2 :: t2) ++
              '}' :: rest)))) with
        | none => none
        | some (v2, r3) =>
          match skipWs r3 with
          | ',' :: r4 =>
            parseF (g + 1) (.objRest (acc ++ [(k, v2)])) (skipWs r4)
          | '}' :: r4 => some (.obj (acc ++ [(k, v2)]), r4)
          | _ => none) = _
      rw [parseF_val_skipWs, show skipWs
          (' ' :: (printVal v ++
            (',' :: ' ' :: (printObjElems (kv2 :: t2) ++ '}' :: rest)))) =
          printVal v ++
            (',' :: ' ' :: (printObjElems (kv2 :: t2) ++ '}' :: rest))
          from by
        rw [show skipWs (' ' :: (printVal v ++
            (',' :: ' ' :: (printObjElems (kv2 :: t2) ++ '}' :: rest)))) =
            skipWs (printVal v ++
              (',' :: ' ' :: (printObjElems (kv2 :: t2) ++ '}' :: rest)))
            from rfl]
        exact skipWs_printVal v _]
      rw [parse_printVal v (g + 1)
        (',' :: ' ' :: (printObjElems (kv2 :: t2) ++ '}' :: rest)) (by
          simp only [weightObj] at hw
          omega) rfl]
      change parseF (g + 1) (.objRest (acc ++ [(k, v)]))
        (skipWs (' ' :: (printObjElems (kv2 :: t2) ++ '}' :: rest))) = _
      obtain ⟨u2, hpe2⟩ := printObjElems_cons kv2 t2
      rw [show skipWs (' ' :: (printObjElems (kv2 :: t2) ++ '}' :: rest)) =
          printObjElems (kv2 :: t2) ++ '}' :: rest from by
        rw [show skipWs (' ' :: (printObjElems (kv2 :: t2) ++
            '}' :: rest)) =
            skipWs (printObjElems (kv2 :: t2) ++ '}' :: rest) from rfl]
        rw [hpe2]
        exact skipWs_cons_of _ _ (by decide)]
      rw [parse_printObj kv2.1 kv2.2 t2 (g + 1) (acc ++ [(k, v)]) rest (by
        simp only [weightObj] at hw ⊢
        omega)]
      simp
termination_by sizeOf ((k, v) :: kvs)
decreasing_by
  all_goals simp_wf
  all_goals try subst_vars
  all_goals try simp
  all_goals try rw [List.cons.sizeOf_spec]
  all_goals omega

end

mutual

/-- The parsing weight of a value is covered by its printed length. -/
theorem weight_le_print (v : JVal) : weight v ≤ (printVal v).length := by
  cases v with
  | null => simp [weight, printVal]
  | bool b => cases b <;> simp [weight, printVal]
  | num n =>
    obtain ⟨c, t, h, -, -, -, -⟩ := printVal_cons (.num n)
    simp [weight, h]
  | str s =>
    simp only [weight, printVal, List.length_cons, List.length_append]
    omega
  | arr xs =>
    have h := weightArr_le_print xs
    simp only [weight, printVal, List.length_cons, List.length_append]
    omega
  | obj kvs =>
    have h := weightObj_le_print kvs
    simp only [weight, printVal, List.length_cons, List.length_append]
    omega
termination_by sizeOf v
decreasing_by
  all_goals simp_wf
  all_goals try subst_vars
  all_goals try simp
  all_goals try rw [List.cons.sizeOf_spec]
  all_goals omega

/-- The array-tail weight is covered by the printed element list. -/
theorem weightArr_le_print (xs : List JVal) :
    weightArr xs ≤ (printElems xs).length + 1 := by
  cases xs with
  | nil => simp [weightArr, printElems]
  | cons x t =>
    have hx := weight_le_print x
    cases t with
    | nil =>
      have h1 : 1 ≤ (printVal x).length := by
        obtain ⟨c, tt, h, -, -, -, -⟩ := printVal_cons x
        simp [h]
      simp only [weightArr, printElems]
      omega
    | cons y t2 =>
      have hr := weightArr_le_print (y :: t2)
      rw [weightArr, show printElems (x :: y :: t2) =
        printVal x ++ ',' :: ' ' :: printElems (y :: t2) from by
        simp [printElems]]
      simp only [List.length_append, List.length_cons]
      omega
termination_by sizeOf xs
decreasing_by
  all_goals simp_wf
  all_goals try subst_vars
  all_goals try simp
  all_goals try rw [List.cons.sizeOf_spec]
  all_goals omega

/-- The object-tail weight is covered by the printed member list. -/
theorem weightObj_le_print (kvs : List (List Char × JVal)) :
    weightObj kvs ≤ (printObjElems kvs).length + 1 := by
  rcases kvs with _ | ⟨⟨k, v⟩, t⟩
  · simp [weightObj, printObjElems]
  · have hv := weight_le_print v
    rcases t with _ | ⟨kv2, t2⟩
    · simp only [weightObj, printObjElems, List.length_cons,
        List.length_append]
      omega
    · have hr := weightObj_le_print (kv2 :: t2)
      rw [weightObj, show printObjElems ((k, v) :: kv2 :: t2) =
        '"' :: escapeStr k ++ '"' :: ':' :: ' ' :: (printVal v ++
          ',' :: ' ' :: printObjElems (kv2 :: t2)) from by
        simp [printObjElems]]
      simp only [List.length_append, List.length_cons]
      omega
termination_by sizeOf kvs
decreasing_by
  all_goals simp_wf
  all_goals try subst_vars
  all_goals try simp
  all_goals try rw [List.cons.sizeOf_spec]
  all_goals omega

end

/-- `json.loads` of the printed form of any value recovers the value. -/
theorem loads_print (v : JVal) : loads (printVal v) = some v := by
  unfold loads
  have h1 : parseF ((printVal v).length + 1) .val (printVal v ++ []) =
      some (v, []) :=
    parse_printVal v _ [] (Nat.le_trans (weight_le_print v) (by omega)) rfl
  rw [List.append_nil] at h1
  rw [h1]
  rfl

/-- `dropWhile` jumps over a block that satisfies the predicate. -/
theorem dropWhile_all_append (p : Char → Bool) (l1 l2 : List Char)
    (h : ∀ x ∈ l1, p x = true) :
    List.dropWhile p (l1 ++ l2) = List.dropWhile p l2 := by
  induction l1 with
  | nil => rfl
  | cons a t ih =>
    rw [List.cons_append, List.dropWhile_cons, if_pos (h a (by simp))]
    exact ih fun x hx => h x (by simp [hx])

/-- `str.strip` removes exactly the whitespace around a block delimited by
non-whitespace characters. -/
theorem pyStrip_wrap (pre mid post : List Char) (c d : Char)
    (hpre : ∀ x ∈ pre, isPySpace x = true)
    (hpost : ∀ x ∈ post, isPySpace x = true)
    (hc : isPySpace c = false) (hd : isPySpace d = false) :
    pyStrip (pre ++ c :: (mid ++ d :: post)) = c :: (mid ++ [d]) := by
  unfold pyStrip
  rw [dropWhile_all_append _ pre _ hpre]
  rw [List.dropWhile_cons, if_neg (by simp [hc])]
  rw [show (c :: (mid ++ d :: post)).reverse =
    List.reverse post ++ d :: (mid.reverse ++ [c]) from by simp]
  rw [dropWhile_all_append _ post.reverse _
    (fun x hx => hpost x (List.mem_reverse.mp hx))]
  rw [List.dropWhile_cons, if_neg (by simp [hd])]
  simp

/-- A list ending in a non-backtick character does not end in a backtick
fence. -/
theorem not_isSuffixOf_backticks (mid : List Char) (d : Char)
    (hd : d ≠ '`') :
    List.isSuffixOf ['`', '`', '`'] (mid ++ [d]) = false := by
  by_contra h
  have h2 : ['`', '`', '`'] <:+ mid ++ [d] := by
    rw [← List.isSuffixOf_iff_suffix]
    simpa using h
  obtain ⟨w, hw⟩ := h2
  have hlast := congrArg List.getLast? hw
  rw [show w ++ ['`', '`', '`'] = (w ++ ['`', '`']) ++ ['`'] from by simp]
    at hlast
  rw [List.getLast?_concat, List.getLast?_concat] at hlast
  exact hd (Option.some.inj hlast).symm

/-- The printed form of a JSON object. -/
theorem printVal_obj (kvs : List (List Char × JVal)) :
    printVal (.obj kvs) = '{' :: (printObjElems kvs ++ ['}']) := by
  simp [printVal]

/-- `fenceStrip` leaves input alone when there is nothing to strip. -/
theorem fenceStrip_no_fence (x : List Char) (h0 : pyStrip x = x)
    (h1 : List.isPrefixOf ['`', '`', '`'] x = false)
    (h2 : List.isSuffixOf ['`', '`', '`'] x = false) :
    fenceStrip x = x := by
  unfold fenceStrip
  simp only [h0, h1, h2, Bool.false_eq_true, if_false, ite_false]

/-- `fenceStrip` on a fenced input: find the first newline, drop through
it, drop the closing fence, strip. -/
theorem fenceStrip_fenced (x body : List Char) (nl : Nat)
    (h0 : pyStrip x = x)
    (h1 : List.isPrefixOf ['`', '`', '`'] x = true)
    (h2 : x.findIdx? (fun c => c = '\n') = some nl)
    (h3 : x.drop (nl + 1) = (body ++ ['\n']) ++ ['`', '`', '`'])
    (h4 : pyStrip (body ++ ['\n']) = body) :
    fenceStrip x = body := by
  have hsuf : List.isSuffixOf ['`', '`', '`']
      ((body ++ ['\n']) ++ ['`', '`', '`']) = true := by
    rw [List.isSuffixOf_iff_suffix]
    exact ⟨body ++ ['\n'], rfl⟩
  unfold fenceStrip
  simp only [h0, h1, h2, h3, hsuf, if_true, ite_true]
  rw [show ((body ++ ['\n']) ++ ['`', '`', '`']).length - 3 =
    (body ++ ['\n']).length from by simp]
  rw [List.take_left]
  exact h4

/-- `str.strip` is the identity on a printed JSON object. -/
theorem pyStrip_print (kvs : List (List Char × JVal)) :
    pyStrip (printVal (.obj kvs)) = printVal (.obj kvs) := by
  rw [show printVal (.obj kvs) =
    [] ++ '{' :: (printObjElems kvs ++ '}' :: []) from by
    simp [printVal_obj]]
  rw [pyStrip_wrap [] (printObjElems kvs) [] '{' '}' (by decide)
    (by decide) (by decide) (by decide)]
  simp

/-- `str.strip` absorbs the newline after a printed JSON object. -/
theorem pyStrip_print_newline (kvs : List (List Char × JVal)) :
    pyStrip (printVal (.obj kvs) ++ ['\n']) = printVal (.obj kvs) := by
  rw [show printVal (.obj kvs) ++ ['\n'] =
    [] ++ '{' :: (printObjElems kvs ++ '}' :: ['\n']) from by
    simp [printVal_obj]]
  rw [pyStrip_wrap [] (printObjElems kvs) ['\n'] '{' '}' (by decide)
    (by decide) (by decide) (by decide)]
  simp [printVal_obj]

/-- `fenceStrip` is the identity on a printed JSON object. -/
theorem fenceStrip_print (kvs : List (List Char × JVal)) :
    fenceStrip (printVal (.obj kvs)) = printVal (.obj kvs) := by
  refine fenceStrip_no_fence _ (pyStrip_print kvs) ?_ ?_
  · rw [printVal_obj]
    rfl
  · rw [show printVal (.obj kvs) =
      ('{' :: printObjElems kvs) ++ ['}'] from by simp [printVal_obj]]
    exact not_isSuffixOf_backticks _ _ (by decide)

/-- `str.strip` is the identity on the whole backtick fence (it starts and
ends with a backtick). -/
theorem pyStrip_fenceWrap (tag : List Char) (kvs : List (List Char × JVal))
    (htag : fenceWrap tag (printVal (.obj kvs)) =
      '`' :: (('`' :: '`' :: tag ++ '\n' ::
        (printVal (.obj kvs) ++ ['\n', '`', '`'])) ++ '`' :: [])) :
    pyStrip (fenceWrap tag (printVal (.obj kvs))) =
      fenceWrap tag (printVal (.obj kvs)) := by
  rw [htag]
  rw [show '`' :: (('`' :: '`' :: tag ++ '\n' ::
      (printVal (.obj kvs) ++ ['\n', '`', '`'])) ++ '`' :: []) =
      [] ++ '`' :: (('`' :: '`' :: tag ++ '\n' ::
        (printVal (.obj kvs) ++ ['\n', '`', '`'])) ++ '`' :: []) from by
    simp]
  rw [pyStrip_wrap [] ('`' :: '`' :: tag ++ '\n' ::
    (printVal (.obj kvs) ++ ['\n', '`', '`'])) [] '`' '`' (by decide)
    (by decide) (by decide) (by decide)]
  simp

/-- `fenceStrip` recovers the body from a backtick fence whose fence line
carries the `json` language tag. -/
theorem fenceStrip_fenceWrap_json (kvs : List (List Char × JVal)) :
    fenceStrip (fenceWrap ['j', 's', 'o', 'n'] (printVal (.obj kvs))) =
      printVal (.obj kvs) := by
  refine fenceStrip_fenced _ _ 7 (pyStrip_fenceWrap _ kvs (by simp
    [fenceWrap])) ?_ ?_ ?_ (pyStrip_print_newline kvs)
  · rw [show fenceWrap ['j', 's', 'o', 'n'] (printVal (.obj kvs)) =
      '`' :: '`' :: '`' :: 'j' :: 's' :: 'o' :: 'n' :: '\n' ::
        (printVal (.obj kvs) ++ '\n' :: ['`', '`', '`']) from by
      simp [fenceWrap]]
    rfl
  · rw [show fenceWrap ['j', 's', 'o', 'n'] (printVal (.obj kvs)) =
      '`' :: '`' :: '`' :: 'j' :: 's' :: 'o' :: 'n' :: '\n' ::
        (printVal (.obj kvs) ++ '\n' :: ['`', '`', '`']) from by
      simp [fenceWrap]]
    simp [List.findIdx?_cons]
  · rw [show fenceWrap ['j', 's', 'o', 'n'] (printVal (.obj kvs)) =
      '`' :: '`' :: '`' :: 'j' :: 's' :: 'o' :: 'n' :: '\n' ::
        (printVal (.obj kvs) ++ '\n' :: ['`', '`', '`']) from by
      simp [fenceWrap]]
    simp

/-- `fenceStrip` recovers the body from a bare backtick fence (no language
tag on the fence line). -/
theorem fenceStrip_fenceWrap_plain (kvs : List (List Char × JVal)) :
    fenceStrip (fenceWrap [] (printVal (.obj kvs))) =
      printVal (.obj kvs) := by
  refine fenceStrip_fenced _ _ 3 (pyStrip_fenceWrap _ kvs (by simp
    [fenceWrap])) ?_ ?_ ?_ (pyStrip_print_newline kvs)
  · rw [show fenceWrap [] (printVal (.obj kvs)) =
      '`' :: '`' :: '`' :: '\n' ::
        (printVal (.obj kvs) ++ '\n' :: ['`', '`', '`']) from by
      simp [fenceWrap]]
    rfl
  · rw [show fenceWrap [] (printVal (.obj kvs)) =
      '`' :: '`' :: '`' :: '\n' ::
        (printVal (.obj kvs) ++ '\n' :: ['`', '`', '`']) from by
      simp [fenceWrap]]
    simp [List.findIdx?_cons]
  · rw [show fenceWrap [] (printVal (.obj kvs)) =
      '`' :: '`' :: '`' :: '\n' ::
        (printVal (.obj kvs) ++ '\n' :: ['`', '`', '`']) from by
      simp [fenceWrap]]
    simp

/-- C9 counterexample: with the empty string as session id (a falsy string
the registration path treats like `None`), two calls create two distinct
sessions and the registry gains two entries, refuting the claim for every
session id. -/
theorem get_or_create_session_empty_id_counterexample :
    (getOrCreateSession (getOrCreateSession {} (some "")).2 (some "")).1 ≠
      (getOrCreateSession ({} : Orchestrator) (some "")).1 ∧
    (getOrCreateSession (getOrCreateSession {} (some "")).2
        (some "")).2.sessions.length = 2 := by
  decide

/-- C5: the tolerant JSON extractor `_safe_json_parse` (a) returns every
JSON object value unchanged when given its serialized text, (b) returns
the same structure for that text wrapped in leading/trailing
triple-backtick fences, with or without a `json` language tag on the
fence line, and (c) returns an absent result, rather than raising, on any
input where both parse attempts (the strict parse of the fence-stripped
text and the first-brace-to-last-brace retry) fail.  Part (c) amends the
claim: the claim promises an absent result for every input containing no
JSON object, but `json.loads` accepts non-object JSON values, so e.g. the
input "42" yields a present result (see the counterexample). -/
theorem safe_json_parse_props :
    (∀ kvs : List (List Char × JVal),
      safeJsonParse (printVal (.obj kvs)) = some (.obj kvs) ∧
      safeJsonParse (fenceWrap ['j', 's', 'o', 'n'] (printVal (.obj kvs))) =
        safeJsonParse (printVal (.obj kvs)) ∧
      safeJsonParse (fenceWrap [] (printVal (.obj kvs))) =
        safeJsonParse (printVal (.obj kvs))) ∧
    (∀ s : List Char, loads (fenceStrip s) = none →
      braceRetry (fenceStrip s) = none → safeJsonParse s = none) := by
  constructor
  · intro kvs
    have hid : safeJsonParse (printVal (.obj kvs)) = some (.obj kvs) := by
      simp only [safeJsonParse, fenceStrip_print, loads_print]
    refine ⟨hid, ?_, ?_⟩
    · simp only [safeJsonParse, fenceStrip_fenceWrap_json, fenceStrip_print,
        loads_print]
    · simp only [safeJsonParse, fenceStrip_fenceWrap_plain, fenceStrip_print,
        loads_print]
  · intro s h1 h2
    simp only [safeJsonParse, h1]
    exact h2

/-- Witness for C5: on the plain-prose input "no json" both parse attempts
fail, and `safe_json_parse_props` yields the absent result. -/
theorem safe_json_parse_props_witness :
    safeJsonParse ['n', 'o', ' ', 'j', 's', 'o', 'n'] = none :=
  safe_json_parse_props.2 ['n', 'o', ' ', 'j', 's', 'o', 'n'] rfl rfl

/-- Counterexample for C5's part (c) as literally claimed: the input "42"
contains no JSON object (it has no brace at all, as the `find` result
shows), yet `_safe_json_parse` returns the present value 42, because
`json.loads` accepts any JSON value, not only objects. -/
theorem safe_json_parse_counterexample :
    safeJsonParse ['4', '2'] = some (.num 42) ∧
    pyFindChar ['4', '2'] '{' = -1 ∧
    pyFindChar ['4', '2'] '}' = -1 :=
  ⟨rfl, rfl, rfl⟩

end EduLoop
